import Mathlib

/-!
# Bencode decoder of `src/Main.cpp`

A shallow embedding of the recursive-descent decoder
(`decode_bencoded_string`, `decode_bencoded_integer`, `decode_bencoded_list`,
`decode_bencoded_dictionary`, `decode_bencoded_value`) together with the parts
of the C++ standard library and of the `nlohmann::json` library it relies on
(`std::string::find`, `substr`, `operator[]`, `std::atoll`, `std::stoll`, and
the `json` value type with its key-sorted object).

* A `std::string` is a `List Nat` of byte values; a `size_t` is a `Nat`
  reduced modulo `2 ^ 64`; an `int64_t` is an `Int` kept inside the signed
  64-bit range.
* Every rule takes the buffer and the cursor and returns an `Outcome`: the
  decoded `json` with the cursor left behind, a thrown C++ exception, an
  out-of-range `operator[]` read (undefined behaviour), or exhaustion of the
  fuel that bounds the depth of the call chain.
-/

namespace Bencode

/-! ## Bytes and library helpers -/

/-- Byte values of an ASCII text, used to write buffers readably. -/
def bytes (s : String) : List Nat := s.toList.map Char.toNat

/-- Modulus of `size_t` arithmetic (64-bit target). -/
abbrev SIZE_MOD : Nat := 18446744073709551616

/-- Largest `long long`. -/
abbrev LLONG_MAX : Int := 9223372036854775807

/-- Smallest `long long`. -/
abbrev LLONG_MIN : Int := -9223372036854775808

/-- Conversion of a signed value to `size_t`: reduction modulo `2 ^ 64`. -/
def size_t (x : Int) : Nat := (x % 18446744073709551616).toNat

/-- The `std::isdigit` test on a byte (C locale): `'0'` to `'9'`. -/
def isdigit (c : Nat) : Bool := decide (48 ≤ c) && decide (c ≤ 57)

/-- The `isspace` test on a byte (C locale): space and `\t \n \v \f \r`. -/
def isspace (c : Nat) : Bool := decide (c = 32) || (decide (9 ≤ c) && decide (c ≤ 13))

/-- Offset of the first occurrence of `c` in `s`, if any. -/
def find_in : List Nat → Nat → Option Nat
  | [], _ => none
  | x :: xs, c => if x = c then some 0 else (find_in xs c).map (fun i => i + 1)

/-- The call `s.find(c, pos)`: index of the first `c` at or after `pos`;
`none` stands for `std::string::npos`. -/
def find (s : List Nat) (c : Nat) (pos : Nat) : Option Nat :=
  (find_in (s.drop pos) c).map (fun i => pos + i)

/-- The call `s.substr(pos, count)`: `none` stands for the `std::out_of_range`
thrown when `pos > s.size()`; otherwise the result is cut at the end of `s`. -/
def substr (s : List Nat) (pos count : Nat) : Option (List Nat) :=
  if s.length < pos then none else some ((s.drop pos).take count)

/-- The read `s[pos]` of a `std::string`: the byte when `pos < s.size()`, the
terminating NUL when `pos == s.size()`, and `none` (undefined behaviour) when
`pos > s.size()`. -/
def index (s : List Nat) (pos : Nat) : Option Nat :=
  match s[pos]? with
  | some c => some c
  | none => if pos = s.length then some 0 else none

/-- Value of a run of ASCII digits read left to right. -/
def digits_value (ds : List Nat) : Nat :=
  ds.foldl (fun acc d => 10 * acc + (d - 48)) 0

/-- The scan shared by `strtoll`-based conversions in base 10: skip leading
white space, take an optional sign, then the longest run of digits. `none`
when no digit follows (no conversion); otherwise the exact signed value. -/
def strtoll_scan (s : List Nat) : Option Int :=
  let body := s.dropWhile isspace
  let signed : Bool × List Nat :=
    match body with
    | [] => (false, [])
    | c :: r => if c = 45 then (true, r) else if c = 43 then (false, r) else (false, c :: r)
  let ds := signed.2.takeWhile isdigit
  if ds.isEmpty then none
  else
    let magnitude : Int := (digits_value ds : Nat)
    some (if signed.1 then -magnitude else magnitude)

/-- The call `std::atoll(str.c_str())`: `0` when no conversion is possible,
the value when it is representable, and the nearest bound of `long long`
otherwise (the behaviour of the `strtoll` it is implemented with). -/
def atoll (s : List Nat) : Int :=
  match strtoll_scan s with
  | none => 0
  | some x => if x < LLONG_MIN then LLONG_MIN else if LLONG_MAX < x then LLONG_MAX else x

/-- C++ exceptions the decoder can raise. -/
inductive Exn where
  | runtime_error
  | invalid_argument
  | out_of_range
  | type_error
  deriving DecidableEq, Repr

/-- The call `std::stoll(str)`: `std::invalid_argument` when no conversion is
possible, `std::out_of_range` when the value does not fit `long long`;
bytes after the digit run are ignored. -/
def stoll (s : List Nat) : Except Exn Int :=
  match strtoll_scan s with
  | none => .error .invalid_argument
  | some x => if x < LLONG_MIN ∨ LLONG_MAX < x then .error .out_of_range else .ok x

/-! ## The value tree -/

/-- The `json` alias of Main.cpp:7-9, the value type of the third-party library
`nlohmann::json`, restricted to the four shapes the decoder builds (Text,
Integer, List, Dictionary). As with the C++ standard library, the behaviour
modelled is the documented one: the members of an object live in the
library's default object type `std::map<std::string, json>`, one entry per
key, in ascending byte-wise key order. -/
inductive json where
  | string (s : List Nat)
  | number_integer (k : Int)
  | array (items : List json)
  | object (members : List (List Nat × json))

/-- Byte-wise `std::string` ordering `a < b`: lexicographic on unsigned bytes,
a proper prefix being smaller. -/
def key_lt : List Nat → List Nat → Bool
  | _, [] => false
  | [], _ :: _ => true
  | a :: as, b :: bs => decide (a < b) || (decide (a = b) && key_lt as bs)

/-- The assignment `dictionary[key] = value` of `nlohmann::json` (Main.cpp:84)
on the members of an object, with the semantics of `std::map::operator[]`:
overwrite the entry of `key` when there is one, else insert the pair at its
place in ascending key order. -/
def object_set (members : List (List Nat × json)) (key : List Nat) (value : json) :
    List (List Nat × json) :=
  match members with
  | [] => [(key, value)]
  | (k, v) :: rest =>
    if key_lt key k then (key, value) :: (k, v) :: rest
    else if key_lt k key then (k, v) :: object_set rest key value
    else (key, value) :: rest

/-- Result of running a decode rule. -/
inductive Outcome where
  | ok (value : json) (position : Nat)
  | throws (e : Exn)
  | undefined_read (position : Nat)
  | out_of_fuel

/-! ## The decoder -/

/-- Embedding of `decode_bencoded_string` (Main.cpp:12-34). -/
def decode_bencoded_string (encoded_string : List Nat) (position : Nat) : Outcome :=
  match find encoded_string 58 position with
  | some length_prefix =>
    match substr encoded_string position ( length_prefix - position) with
    | none => .throws .out_of_range
    | some string_size_str =>
      let string_size_int := atoll string_size_str
      let position' := size_t (( length_prefix : Int) + 1 + string_size_int)
      match substr encoded_string ( length_prefix + 1) (size_t string_size_int) with
      | none => .throws .out_of_range
      | some str => .ok (.string str) position'
  | none => .throws .runtime_error

/-- Embedding of `decode_bencoded_integer` (Main.cpp:37-52). -/
def decode_bencoded_integer (encoded_value : List Nat) (position : Nat) : Outcome :=
  let position1 := (position + 1) % SIZE_MOD
  match find encoded_value 101 position1 with
  | none => .throws .invalid_argument
  | some end_ =>
    match substr encoded_value position1 (end_ - position1) with
    | none => .throws .out_of_range
    | some integer_str =>
      let position2 := (end_ + 1) % SIZE_MOD
      match stoll integer_str with
      | .error e => .throws e
      | .ok k => .ok (.number_integer k) position2

mutual

/-- Embedding of the two-argument `decode_bencoded_value` (Main.cpp:93-110).
The first argument is the fuel: each call and each loop iteration spends one
unit. -/
def decode_bencoded_value : Nat → List Nat → Nat → Outcome
  | 0, _, _ => .out_of_fuel
  | fuel + 1, encoded_value, position =>
    match index encoded_value position with
    | none => .undefined_read position
    | some c =>
      if isdigit c then decode_bencoded_string encoded_value position
      else if c = 105 then decode_bencoded_integer encoded_value position
      else if c = 108 then decode_bencoded_list fuel encoded_value position
      else if c = 100 then decode_bencoded_dictionary fuel encoded_value position
      else .throws .runtime_error
termination_by structural fuel => fuel

/-- Embedding of `decode_bencoded_list` (Main.cpp:58-72): skip the `l`, then
run the loop on an empty array. -/
def decode_bencoded_list : Nat → List Nat → Nat → Outcome
  | 0, _, _ => .out_of_fuel
  | fuel + 1, encoded_value, position =>
    decode_bencoded_list_loop fuel encoded_value ((position + 1) % SIZE_MOD) []
termination_by structural fuel => fuel

/-- The `while` loop of `decode_bencoded_list` (Main.cpp:65-71) with the
array built so far. -/
def decode_bencoded_list_loop : Nat → List Nat → Nat → List json → Outcome
  | 0, _, _, _ => .out_of_fuel
  | fuel + 1, encoded_value, position, list =>
    match index encoded_value position with
    | none => .undefined_read position
    | some c =>
      if c ≠ 101 then
        match decode_bencoded_value fuel encoded_value position with
        | .ok v position' =>
          decode_bencoded_list_loop fuel encoded_value position' (list ++ [v])
        | .throws e => .throws e
        | .undefined_read p => .undefined_read p
        | .out_of_fuel => .out_of_fuel
      else .ok (.array list) ((position + 1) % SIZE_MOD)
termination_by structural fuel => fuel

/-- Embedding of `decode_bencoded_dictionary` (Main.cpp:74-90): skip the `d`,
then run the loop on an empty object. -/
def decode_bencoded_dictionary : Nat → List Nat → Nat → Outcome
  | 0, _, _ => .out_of_fuel
  | fuel + 1, encoded_value, position =>
    decode_bencoded_dictionary_loop fuel encoded_value ((position + 1) % SIZE_MOD) []
termination_by structural fuel => fuel

/-- The `while` loop of `decode_bencoded_dictionary` (Main.cpp:79-89) with the
object built so far. -/
def decode_bencoded_dictionary_loop :
    Nat → List Nat → Nat → List (List Nat × json) → Outcome
  | 0, _, _, _ => .out_of_fuel
  | fuel + 1, encoded_value, position, dictionary =>
    match index encoded_value position with
    | none => .undefined_read position
    | some c =>
      if c ≠ 101 then
        match decode_bencoded_string encoded_value position with
        | .ok (.string key) position' =>
          match decode_bencoded_value fuel encoded_value position' with
          | .ok v position'' =>
            decode_bencoded_dictionary_loop fuel encoded_value position''
              (object_set dictionary key v)
          | .throws e => .throws e
          | .undefined_read p => .undefined_read p
          | .out_of_fuel => .out_of_fuel
        | .ok _ _ => .throws .type_error
        | .throws e => .throws e
        | .undefined_read p => .undefined_read p
        | .out_of_fuel => .out_of_fuel
      else .ok (.object dictionary) ((position + 1) % SIZE_MOD)
termination_by structural fuel => fuel

end

/-- Embedding of the one-argument `decode_bencoded_value` (Main.cpp:113-116):
start the dispatcher at position `0`. -/
def decode_bencoded_value_from_start (fuel : Nat) (encoded_value : List Nat) : Outcome :=
  decode_bencoded_value fuel encoded_value 0

/-! ## Reference encoder

The sources hold no encoder. The one below writes the format in the words of
the specification and serves as the yardstick for the decoder. -/

/-- Canonical decimal digits of `n` with a bound on the number of digits. -/
def decimal_fuel : Nat → Nat → List Nat
  | 0, _ => []
  | fuel + 1, n =>
    if n < 10 then [48 + n] else decimal_fuel fuel (n / 10) ++ [48 + n % 10]

/-- Canonical decimal text of a natural number: no leading zero, `0` for zero. -/
def decimal (n : Nat) : List Nat := decimal_fuel (n + 1) n

/-- Canonical decimal text of an integer: a `-` in front of negative values. -/
def decimal_int (k : Int) : List Nat :=
  if k < 0 then 45 :: decimal k.natAbs else decimal k.natAbs

/-- Reference encoding of a string: `<decimal length>:<bytes>`. -/
def encode_string (s : List Nat) : List Nat := decimal s.length ++ 58 :: s

/-- Concatenated reference encodings of a sequence of strings. -/
def encode_strings : List (List Nat) → List Nat
  | [] => []
  | s :: ss => encode_string s ++ encode_strings ss

mutual

/-- Reference encoding of a value tree: strings as `<decimal length>:<bytes>`,
integers as `i<decimal>e`, lists as `l<items>e`, dictionaries as
`d(<key><value>)*e`, the entries written in the order given. -/
def encode : json → List Nat
  | .string s => encode_string s
  | .number_integer k => 105 :: decimal_int k ++ [101]
  | .array items => 108 :: encode_items items ++ [101]
  | .object members => 100 :: encode_members members ++ [101]

/-- Concatenated encodings of the items of a list. -/
def encode_items : List json → List Nat
  | [] => []
  | v :: vs => encode v ++ encode_items vs

/-- Concatenated `<key><value>` encodings of the entries of a dictionary. -/
def encode_members : List (List Nat × json) → List Nat
  | [] => []
  | (k, v) :: ms => encode_string k ++ encode v ++ encode_members ms

end

mutual

/-- The tree as `json` holds it: every dictionary, whatever the order its
entries are listed in, becomes the map obtained by assigning the entries one
after the other. The key-to-value bindings are those of the tree. -/
def normalize : json → json
  | .string s => .string s
  | .number_integer k => .number_integer k
  | .array items => .array (normalize_items items)
  | .object members => .object (normalize_members members [])

/-- Item-wise `normalize`. -/
def normalize_items : List json → List json
  | [] => []
  | v :: vs => normalize v :: normalize_items vs

/-- Assign the normalized entries, in order, to the members built so far. -/
def normalize_members :
    List (List Nat × json) → List (List Nat × json) → List (List Nat × json)
  | [], acc => acc
  | (k, v) :: ms, acc => normalize_members ms (object_set acc k (normalize v))

end

mutual

/-- Every Integer of the tree lies in the signed 64-bit range. -/
def in_range : json → Bool
  | .string _ => true
  | .number_integer k => decide (LLONG_MIN ≤ k) && decide (k ≤ LLONG_MAX)
  | .array items => in_range_items items
  | .object members => in_range_members members

/-- Item-wise `in_range`. -/
def in_range_items : List json → Bool
  | [] => true
  | v :: vs => in_range v && in_range_items vs

/-- Entry-wise `in_range`. -/
def in_range_members : List (List Nat × json) → Bool
  | [] => true
  | (_, v) :: ms => in_range v && in_range_members ms

end

mutual

/-- Every Dictionary of the tree has pairwise distinct keys. -/
def distinct_keys : json → Bool
  | .string _ => true
  | .number_integer _ => true
  | .array items => distinct_keys_items items
  | .object members =>
    decide ((members.map Prod.fst).Nodup) && distinct_keys_members members

/-- Item-wise `distinct_keys`. -/
def distinct_keys_items : List json → Bool
  | [] => true
  | v :: vs => distinct_keys v && distinct_keys_items vs

/-- Entry-wise `distinct_keys`. -/
def distinct_keys_members : List (List Nat × json) → Bool
  | [] => true
  | (_, v) :: ms => distinct_keys v && distinct_keys_members ms

end

/-- The value bound to `key` in a list of entries, if any (first match). -/
def lookup (key : List Nat) : List (List Nat × json) → Option json
  | [] => none
  | (k, v) :: ms => if k = key then some v else lookup key ms

/-- The value of the last entry listed under `key`, if any. -/
def last_binding (key : List Nat) : List (List Nat × json) → Option json
  | [] => none
  | (k, v) :: ms =>
    match last_binding key ms with
    | some w => some w
    | none => if k = key then some v else none

/-- The entries are in strictly ascending byte-wise key order. -/
abbrev ascending_keys (members : List (List Nat × json)) : Prop :=
  members.Pairwise (fun x y => key_lt x.1 y.1 = true)

mutual

/-- Equality of value trees with dictionaries compared as key-to-value
mappings: `same_bindings v w` holds when `w` has the shape of `v` and every
Dictionary of `w` has as many entries as the matching Dictionary of `v` and
binds each of its keys to a matching value, whatever the order of entries. -/
def same_bindings : json → json → Bool
  | .string s, w =>
    match w with
    | .string s' => decide (s = s')
    | _ => false
  | .number_integer k, w =>
    match w with
    | .number_integer k' => decide (k = k')
    | _ => false
  | .array items, w =>
    match w with
    | .array ws => same_bindings_items items ws
    | _ => false
  | .object members, w =>
    match w with
    | .object ns => decide (ns.length = members.length) && same_bindings_members members ns
    | _ => false

/-- Item-wise `same_bindings` of two sequences of equal length. -/
def same_bindings_items : List json → List json → Bool
  | [], ws => ws.isEmpty
  | v :: vs, ws =>
    match ws with
    | w :: ws' => same_bindings v w && same_bindings_items vs ws'
    | [] => false

/-- Every listed entry is bound in `ns` to a matching value. -/
def same_bindings_members : List (List Nat × json) → List (List Nat × json) → Bool
  | [], _ => true
  | (k, v) :: ms, ns =>
    (match lookup k ns with
      | some w => same_bindings v w
      | none => false) && same_bindings_members ms ns

end

/-! ## Library lemmas -/

theorem find_in_append_of_not_mem (a b : List Nat) (c : Nat) (h : c ∉ a) :
    find_in (a ++ c :: b) c = some a.length := by
  induction a with
  | nil => simp [find_in]
  | cons x xs ih =>
    have hx : x ≠ c := fun e => h (by simp [e])
    have hxs : c ∉ xs := fun e => h (by simp [e])
    simp [find_in, hx, ih hxs]

theorem find_in_eq_none (s : List Nat) (c : Nat) (h : c ∉ s) : find_in s c = none := by
  induction s with
  | nil => simp [find_in]
  | cons x xs ih =>
    have hx : x ≠ c := fun e => h (by simp [e])
    have hxs : c ∉ xs := fun e => h (by simp [e])
    simp [find_in, hx, ih hxs]

theorem find_in_some (s : List Nat) (c i : Nat) (h : find_in s c = some i) :
    i < s.length ∧ s[i]? = some c ∧ c ∉ s.take i := by
  induction s generalizing i with
  | nil => simp [find_in] at h
  | cons x xs ih =>
    unfold find_in at h
    by_cases hx : x = c
    · simp [hx] at h
      subst h
      simp [hx]
    · simp only [hx, if_false, Option.map_eq_some'] at h
      obtain ⟨j, hj, rfl⟩ := h
      obtain ⟨h1, h2, h3⟩ := ih j hj
      refine ⟨by simpa using h1, by simpa using h2, ?_⟩
      simp only [List.take_succ_cons, List.mem_cons, not_or]
      exact ⟨fun e => hx e.symm, h3⟩

theorem find_past (p a b : List Nat) (c : Nat) (h : c ∉ a) :
    find (p ++ (a ++ c :: b)) c p.length = some (p.length + a.length) := by
  simp [find, find_in_append_of_not_mem a b c h]

theorem find_eq_none (s : List Nat) (c pos : Nat) (h : c ∉ s.drop pos) :
    find s c pos = none := by
  simp [find, find_in_eq_none _ c h]

theorem find_some (s : List Nat) (c pos i : Nat) (h : find s c pos = some i) :
    pos ≤ i ∧ i < s.length ∧ s[i]? = some c := by
  unfold find at h
  simp only [Option.map_eq_some'] at h
  obtain ⟨j, hj, rfl⟩ := h
  obtain ⟨h1, h2, _⟩ := find_in_some _ c j hj
  simp only [List.length_drop] at h1
  refine ⟨by omega, by omega, ?_⟩
  simpa [List.getElem?_drop] using h2

theorem substr_past (p a b : List Nat) :
    substr (p ++ (a ++ b)) p.length a.length = some a := by
  simp [substr]

theorem index_past (p : List Nat) (c : Nat) (r : List Nat) :
    index (p ++ c :: r) p.length = some c := by
  have h : (p ++ c :: r)[p.length]? = some c := by
    rw [List.getElem?_append_right (le_refl _)]
    simp
  simp [index, h]

theorem index_at_end (s : List Nat) : index s s.length = some 0 := by
  simp [index]

/-! ## Decimal text and its conversions -/

theorem isdigit_iff (c : Nat) : isdigit c = true ↔ 48 ≤ c ∧ c ≤ 57 := by
  simp [isdigit]

theorem digits_value_append (xs : List Nat) (d : Nat) :
    digits_value (xs ++ [d]) = 10 * digits_value xs + (d - 48) := by
  simp [digits_value, List.foldl_append]

theorem decimal_fuel_spec (fuel n : Nat) (h : n < fuel) :
    decimal_fuel fuel n ≠ [] ∧ (∀ d ∈ decimal_fuel fuel n, isdigit d = true) ∧
      digits_value (decimal_fuel fuel n) = n := by
  induction fuel generalizing n with
  | zero => omega
  | succ f ih =>
    unfold decimal_fuel
    by_cases hn : n < 10
    · simp only [hn, if_true]
      refine ⟨by simp, ?_, ?_⟩
      · intro d hd
        simp only [List.mem_singleton] at hd
        subst hd
        rw [isdigit_iff]; omega
      · simp [digits_value]
    · simp only [hn, if_false]
      obtain ⟨_, h2, h3⟩ := ih (n / 10) (by omega)
      refine ⟨by simp, ?_, ?_⟩
      · intro d hd
        rcases List.mem_append.mp hd with hd | hd
        · exact h2 d hd
        · simp only [List.mem_singleton] at hd
          subst hd
          rw [isdigit_iff]; omega
      · rw [digits_value_append, h3]; omega

theorem decimal_ne_nil (n : Nat) : decimal n ≠ [] :=
  (decimal_fuel_spec (n + 1) n (Nat.lt_succ_self n)).1

theorem decimal_isdigit (n d : Nat) (h : d ∈ decimal n) : isdigit d = true :=
  (decimal_fuel_spec (n + 1) n (Nat.lt_succ_self n)).2.1 d h

theorem digits_value_decimal (n : Nat) : digits_value (decimal n) = n :=
  (decimal_fuel_spec (n + 1) n (Nat.lt_succ_self n)).2.2

theorem not_mem_decimal (n c : Nat) (h : isdigit c = false) : c ∉ decimal n := by
  intro hc
  rw [decimal_isdigit n c hc] at h
  exact Bool.noConfusion h

theorem decimal_length_pos (n : Nat) : 0 < (decimal n).length :=
  List.length_pos.mpr (decimal_ne_nil n)

theorem decimal_head (n : Nat) : ∃ d r, decimal n = d :: r ∧ isdigit d = true := by
  cases h : decimal n with
  | nil => exact absurd h (decimal_ne_nil n)
  | cons d r => exact ⟨d, r, rfl, decimal_isdigit n d (by simp [h])⟩

theorem takeWhile_isdigit_append (ds r : List Nat) (hd : ∀ d ∈ ds, isdigit d = true)
    (hr : ∀ c ∈ r.head?, isdigit c = false) :
    (ds ++ r).takeWhile isdigit = ds := by
  induction ds with
  | nil =>
    cases r with
    | nil => rfl
    | cons c r => simp [List.takeWhile, hr c (by simp)]
  | cons d ds ih =>
    have h1 : isdigit d = true := hd d (by simp)
    have h2 := ih (fun x hx => hd x (by simp [hx]))
    simp only [List.cons_append, List.takeWhile_cons, h1, if_true, h2]

/-- The scan of an unsigned digit run followed by a non-digit tail. -/
theorem strtoll_scan_digits (ds r : List Nat) (hne : ds ≠ [])
    (hd : ∀ d ∈ ds, isdigit d = true) (hr : ∀ c ∈ r.head?, isdigit c = false) :
    strtoll_scan (ds ++ r) = some (digits_value ds : Int) := by
  cases ds with
  | nil => exact absurd rfl hne
  | cons d t =>
    have h1 : isdigit d = true := hd d (by simp)
    have h1' := (isdigit_iff d).mp h1
    have hsp : isspace d = false := by simp [isspace]; omega
    have h45 : d ≠ 45 := by omega
    have h43 : d ≠ 43 := by omega
    have htw := takeWhile_isdigit_append (d :: t) r hd hr
    simp only [List.cons_append] at htw
    simp only [strtoll_scan, List.cons_append, List.dropWhile, hsp, h45, h43, if_false,
      List.append_eq]
    rw [htw]
    simp

/-- The scan of a `-` followed by a digit run and a non-digit tail. -/
theorem strtoll_scan_neg_digits (ds r : List Nat) (hne : ds ≠ [])
    (hd : ∀ d ∈ ds, isdigit d = true) (hr : ∀ c ∈ r.head?, isdigit c = false) :
    strtoll_scan (45 :: (ds ++ r)) = some (-(digits_value ds : Int)) := by
  have hsp : isspace 45 = false := by decide
  have htw := takeWhile_isdigit_append ds r hd hr
  have hne' : (List.takeWhile isdigit (ds ++ r)).isEmpty = false := by
    rw [htw]; cases ds with
    | nil => exact absurd rfl hne
    | cons d t => rfl
  simp only [strtoll_scan, List.dropWhile, hsp, if_true, hne']
  rw [htw]
  simp

theorem strtoll_scan_decimal (n : Nat) : strtoll_scan (decimal n) = some (n : Int) := by
  have h := strtoll_scan_digits (decimal n) [] (decimal_ne_nil n) (decimal_isdigit n)
    (by simp)
  simpa [digits_value_decimal] using h

theorem strtoll_scan_decimal_int (k : Int) : strtoll_scan (decimal_int k) = some k := by
  unfold decimal_int
  by_cases hk : k < 0
  · simp only [hk, if_true]
    have h := strtoll_scan_neg_digits (decimal k.natAbs) [] (decimal_ne_nil _)
      (decimal_isdigit _) (by simp)
    simp only [List.append_nil, digits_value_decimal] at h
    rw [h]; congr 1; omega
  · simp only [hk, if_false]
    rw [strtoll_scan_decimal]; congr 1; omega

theorem atoll_decimal (n : Nat) (h : n < 9223372036854775808) : atoll (decimal n) = (n : Int) := by
  simp only [atoll, strtoll_scan_decimal]
  have h1 : ¬ ((n : Int) < LLONG_MIN) := by simp only [LLONG_MIN]; omega
  have h2 : ¬ (LLONG_MAX < (n : Int)) := by simp only [LLONG_MAX]; omega
  simp only [h1, h2, if_false]

theorem stoll_decimal_int (k : Int) (h1 : LLONG_MIN ≤ k) (h2 : k ≤ LLONG_MAX) :
    stoll (decimal_int k) = .ok k := by
  simp only [stoll, strtoll_scan_decimal_int]
  have h : ¬ (k < LLONG_MIN ∨ LLONG_MAX < k) := by
    simp only [LLONG_MIN, LLONG_MAX] at *; omega
  simp only [h, if_false]

theorem not_mem_decimal_int (k : Int) (c : Nat) (h : isdigit c = false) (h45 : c ≠ 45) :
    c ∉ decimal_int k := by
  unfold decimal_int
  by_cases hk : k < 0
  · simp only [hk, if_true, List.mem_cons, not_or]
    exact ⟨h45, not_mem_decimal _ c h⟩
  · simp only [hk, if_false]
    exact not_mem_decimal _ c h

/-! ## The leaf rules on encoded input -/

theorem size_t_natCast (m : Nat) (h : m < 18446744073709551616) : size_t (m : Int) = m := by
  unfold size_t; omega

theorem mod_size (x : Nat) (h : x < 18446744073709551616) : x % SIZE_MOD = x :=
  Nat.mod_eq_of_lt h

theorem encode_string_length (s : List Nat) :
    (encode_string s).length = (decimal s.length).length + 1 + s.length := by
  simp [encode_string]; omega

/-- The string rule reads back an encoded string placed anywhere in a buffer. -/
theorem decode_string_encoded (p s t : List Nat)
    (hsize : (p ++ (encode_string s ++ t)).length < 9223372036854775808) :
    decode_bencoded_string (p ++ (encode_string s ++ t)) p.length
      = .ok (.string s) (p.length + (encode_string s).length) := by
  have hbuf : p ++ (encode_string s ++ t) = p ++ (decimal s.length ++ 58 :: (s ++ t)) := by
    simp [encode_string]
  have hlen := encode_string_length s
  simp only [List.length_append] at hsize
  have hfind : find (p ++ (decimal s.length ++ 58 :: (s ++ t))) 58 p.length
      = some (p.length + (decimal s.length).length) :=
    find_past p _ _ 58 (not_mem_decimal _ 58 (by decide))
  have hsub1 : substr (p ++ (decimal s.length ++ 58 :: (s ++ t))) p.length
      (p.length + (decimal s.length).length - p.length) = some (decimal s.length) := by
    rw [Nat.add_sub_cancel_left]
    exact substr_past p _ _
  have hsub2 : substr (p ++ (decimal s.length ++ 58 :: (s ++ t)))
      (p.length + (decimal s.length).length + 1) s.length = some s := by
    have e : p ++ (decimal s.length ++ 58 :: (s ++ t))
        = (p ++ decimal s.length ++ [58]) ++ (s ++ t) := by simp
    have e2 : p.length + (decimal s.length).length + 1
        = (p ++ decimal s.length ++ [58]).length := by simp [Nat.add_assoc]
    rw [e, e2]
    exact substr_past _ _ _
  have hat : atoll (decimal s.length) = (s.length : Int) := atoll_decimal _ (by omega)
  rw [hbuf]
  unfold decode_bencoded_string
  rw [hfind]
  simp only [hsub1, hat]
  rw [size_t_natCast s.length (by omega)]
  simp only [hsub2]
  have e3 : ((p.length + (decimal s.length).length : Nat) : Int) + 1 + (s.length : Int)
      = ((p.length + (decimal s.length).length + 1 + s.length : Nat) : Int) := by
    push_cast; ring
  rw [e3, size_t_natCast _ (by omega), hlen]
  congr 1; omega

/-- The integer rule reads back an encoded integer placed anywhere in a buffer. -/
theorem decode_integer_encoded (p t : List Nat) (k : Int)
    (h1 : LLONG_MIN ≤ k) (h2 : k ≤ LLONG_MAX)
    (hsize : (p ++ (105 :: (decimal_int k ++ 101 :: t))).length < 18446744073709551616) :
    decode_bencoded_integer (p ++ (105 :: (decimal_int k ++ 101 :: t))) p.length
      = .ok (.number_integer k) (p.length + (1 + (decimal_int k).length + 1)) := by
  simp only [List.length_append, List.length_cons] at hsize
  have e : p ++ (105 :: (decimal_int k ++ 101 :: t))
      = (p ++ [105]) ++ (decimal_int k ++ 101 :: t) := by simp
  have e2 : p.length + 1 = (p ++ [105]).length := by simp
  have hfind : find (p ++ (105 :: (decimal_int k ++ 101 :: t))) 101 (p.length + 1)
      = some (p.length + 1 + (decimal_int k).length) := by
    rw [e, e2, find_past _ _ _ 101 (not_mem_decimal_int k 101 (by decide) (by decide))]
  have hsub : substr (p ++ (105 :: (decimal_int k ++ 101 :: t))) (p.length + 1)
      (p.length + 1 + (decimal_int k).length - (p.length + 1)) = some (decimal_int k) := by
    rw [Nat.add_sub_cancel_left, e, e2]
    exact substr_past _ _ _
  unfold decode_bencoded_integer
  have hp : (p.length + 1) % SIZE_MOD = p.length + 1 := mod_size _ (by omega)
  simp only [hp, hfind, hsub, stoll_decimal_int k h1 h2]
  have hq : (p.length + 1 + (decimal_int k).length + 1) % SIZE_MOD
      = p.length + 1 + (decimal_int k).length + 1 := mod_size _ (by omega)
  rw [hq]
  congr 1; omega

/-! ## Round trip through the reference encoder -/

theorem encode_string_head (s : List Nat) :
    ∃ c r, encode_string s = c :: r ∧ isdigit c = true := by
  obtain ⟨d, r, h, hd⟩ := decimal_head s.length
  exact ⟨d, r ++ 58 :: s, by simp [encode_string, h], hd⟩

theorem encode_head (v : json) : ∃ c r, encode v = c :: r ∧ c ≠ 101 := by
  cases v with
  | string s =>
    obtain ⟨c, r, h, hd⟩ := encode_string_head s
    refine ⟨c, r, by simpa [encode] using h, ?_⟩
    rintro rfl
    exact absurd hd (by decide)
  | number_integer k => exact ⟨105, decimal_int k ++ [101], by simp only [encode, List.cons_append], by decide⟩
  | array items => exact ⟨108, encode_items items ++ [101], by simp only [encode, List.cons_append], by decide⟩
  | object members => exact ⟨100, encode_members members ++ [101], by simp only [encode, List.cons_append], by decide⟩

theorem encode_length_pos (v : json) : 0 < (encode v).length := by
  obtain ⟨c, r, h, _⟩ := encode_head v
  simp [h]

theorem items_length_le (items : List json) : items.length ≤ (encode_items items).length := by
  induction items with
  | nil => simp
  | cons v vs ih =>
    have := encode_length_pos v
    simp only [encode_items, List.length_cons, List.length_append]
    omega

theorem members_length_le (ms : List (List Nat × json)) :
    ms.length ≤ (encode_members ms).length := by
  induction ms with
  | nil => simp
  | cons m ms ih =>
    obtain ⟨k, v⟩ := m
    have := encode_length_pos v
    simp only [encode_members, List.length_cons, List.length_append]
    omega

theorem list_loop_at_end (g : Nat) (q t : List Nat) (acc : List json)
    (hsize : (q ++ 101 :: t).length < 18446744073709551616) :
    decode_bencoded_list_loop (g + 1) (q ++ 101 :: t) q.length acc
      = .ok (.array acc) (q.length + 1) := by
  simp only [List.length_append, List.length_cons] at hsize
  rw [decode_bencoded_list_loop, index_past]
  simp only [ne_eq, not_true_eq_false, if_false, mod_size (q.length + 1) (by omega)]

theorem dictionary_loop_at_end (g : Nat) (q t : List Nat) (acc : List (List Nat × json))
    (hsize : (q ++ 101 :: t).length < 18446744073709551616) :
    decode_bencoded_dictionary_loop (g + 1) (q ++ 101 :: t) q.length acc
      = .ok (.object acc) (q.length + 1) := by
  simp only [List.length_append, List.length_cons] at hsize
  rw [decode_bencoded_dictionary_loop, index_past]
  simp only [ne_eq, not_true_eq_false, if_false, mod_size (q.length + 1) (by omega)]

mutual

/-- The dispatcher reads back an encoded tree placed anywhere in a buffer. -/
theorem decode_encode_value : ∀ (v : json) (p t : List Nat) (fuel : Nat),
    in_range v = true →
    (p ++ (encode v ++ t)).length < 9223372036854775808 →
    2 * (encode v).length ≤ fuel →
    decode_bencoded_value fuel (p ++ (encode v ++ t)) p.length
      = .ok (normalize v) (p.length + (encode v).length)
  | .string s, p, t, fuel, _, hsize, hfuel => by
    obtain ⟨c, r, hc, hd⟩ := encode_string_head s
    have hpos : 0 < (encode (.string s)).length := encode_length_pos _
    obtain ⟨f, rfl⟩ : ∃ f, fuel = f + 1 := ⟨fuel - 1, by omega⟩
    simp only [encode] at hsize ⊢
    have hidx : index (p ++ (encode_string s ++ t)) p.length = some c := by
      rw [hc]; exact index_past p c (r ++ t)
    rw [decode_bencoded_value, hidx]
    simp only [hd, if_true, normalize]
    exact decode_string_encoded p s t hsize
  | .number_integer k, p, t, fuel, hr, hsize, hfuel => by
    have hpos : 0 < (encode (.number_integer k)).length := encode_length_pos _
    obtain ⟨f, rfl⟩ : ∃ f, fuel = f + 1 := ⟨fuel - 1, by omega⟩
    have hbuf : p ++ (encode (.number_integer k) ++ t)
        = p ++ (105 :: (decimal_int k ++ 101 :: t)) := by simp [encode]
    have hlen : (encode (.number_integer k)).length = 1 + (decimal_int k).length + 1 := by
      simp [encode]; omega
    simp only [in_range, Bool.and_eq_true, decide_eq_true_eq] at hr
    rw [hbuf] at hsize ⊢
    rw [decode_bencoded_value, index_past]
    have h1 : isdigit 105 = false := by decide
    simp only [h1, if_true, normalize, hlen]
    exact decode_integer_encoded p t k hr.1 hr.2 (by omega)
  | .array items, p, t, fuel, hr, hsize, hfuel => by
    have hbuf : p ++ (encode (.array items) ++ t)
        = p ++ (108 :: (encode_items items ++ 101 :: t)) := by simp [encode]
    have hbuf2 : p ++ (108 :: (encode_items items ++ 101 :: t))
        = (p ++ [108]) ++ (encode_items items ++ 101 :: t) := by simp
    have hbuf3 : (p ++ [108]) ++ (encode_items items ++ 101 :: t)
        = (p ++ [108] ++ encode_items items) ++ 101 :: t := by simp
    have hlen : (encode (.array items)).length = (encode_items items).length + 2 := by
      simp [encode]
    have hn := items_length_le items
    simp only [in_range] at hr
    rw [hlen] at hfuel ⊢
    obtain ⟨g, rfl⟩ : ∃ g, fuel = g + 1 + items.length + 1 + 1 :=
      ⟨fuel - items.length - 3, by omega⟩
    rw [hbuf] at hsize ⊢
    rw [decode_bencoded_value, index_past]
    have h1 : isdigit 108 = false := by decide
    have hsz := hsize
    simp only [List.length_append, List.length_cons] at hsz
    simp only [h1, if_true, decode_bencoded_list, mod_size (p.length + 1) (by omega)]
    have step := decode_encode_items items (p ++ [108]) (101 :: t) [] (g + 1) hr
      (by rw [← hbuf2]; exact hsize) (by omega)
    simp only [List.length_append, List.length_singleton, List.nil_append] at step
    rw [hbuf2]
    simp only [Bool.false_eq_true, if_false, show (108 : Nat) ≠ 105 from by decide]
    rw [step, hbuf3]
    have e : p.length + 1 + (encode_items items).length
        = (p ++ [108] ++ encode_items items).length := by
      simp only [List.length_append, List.length_singleton]
    rw [e, list_loop_at_end g _ t _ (by rw [← hbuf3, ← hbuf2]; omega), normalize]
    congr 1
    simp; omega
  | .object ms, p, t, fuel, hr, hsize, hfuel => by
    have hbuf : p ++ (encode (.object ms) ++ t)
        = p ++ (100 :: (encode_members ms ++ 101 :: t)) := by simp [encode]
    have hbuf2 : p ++ (100 :: (encode_members ms ++ 101 :: t))
        = (p ++ [100]) ++ (encode_members ms ++ 101 :: t) := by simp
    have hbuf3 : (p ++ [100]) ++ (encode_members ms ++ 101 :: t)
        = (p ++ [100] ++ encode_members ms) ++ 101 :: t := by simp
    have hlen : (encode (.object ms)).length = (encode_members ms).length + 2 := by
      simp [encode]
    have hn := members_length_le ms
    simp only [in_range] at hr
    rw [hlen] at hfuel ⊢
    obtain ⟨g, rfl⟩ : ∃ g, fuel = g + 1 + ms.length + 1 + 1 :=
      ⟨fuel - ms.length - 3, by omega⟩
    rw [hbuf] at hsize ⊢
    rw [decode_bencoded_value, index_past]
    have h1 : isdigit 100 = false := by decide
    have hsz := hsize
    simp only [List.length_append, List.length_cons] at hsz
    simp only [h1, if_true, decode_bencoded_dictionary, mod_size (p.length + 1) (by omega)]
    have step := decode_encode_members ms (p ++ [100]) (101 :: t) [] (g + 1) hr
      (by rw [← hbuf2]; exact hsize) (by omega)
    simp only [List.length_append, List.length_singleton] at step
    rw [hbuf2]
    simp only [Bool.false_eq_true, if_false, show (100 : Nat) ≠ 105 from by decide,
      show (100 : Nat) ≠ 108 from by decide]
    rw [step, hbuf3]
    have e : p.length + 1 + (encode_members ms).length
        = (p ++ [100] ++ encode_members ms).length := by
      simp only [List.length_append, List.length_singleton]
    rw [e, dictionary_loop_at_end g _ t _ (by rw [← hbuf3, ← hbuf2]; omega), normalize]
    congr 1
    simp; omega

/-- The list loop steps over encoded items, one unit of fuel per item. -/
theorem decode_encode_items : ∀ (items : List json) (p r : List Nat) (acc : List json)
    (g : Nat),
    in_range_items items = true →
    (p ++ (encode_items items ++ r)).length < 9223372036854775808 →
    2 * (encode_items items).length + 1 ≤ g + items.length →
    decode_bencoded_list_loop (g + items.length) (p ++ (encode_items items ++ r)) p.length acc
      = decode_bencoded_list_loop g (p ++ (encode_items items ++ r))
          (p.length + (encode_items items).length) (acc ++ normalize_items items)
  | [], p, r, acc, g, _, _, _ => by simp [encode_items, normalize_items]
  | v :: vs, p, r, acc, g, hr, hsize, hfuel => by
    simp only [in_range_items, Bool.and_eq_true] at hr
    have hbuf : p ++ (encode_items (v :: vs) ++ r) = p ++ (encode v ++ (encode_items vs ++ r)) := by
      simp [encode_items]
    have hbuf2 : p ++ (encode v ++ (encode_items vs ++ r))
        = (p ++ encode v) ++ (encode_items vs ++ r) := by simp
    have hlen : (encode_items (v :: vs)).length = (encode v).length + (encode_items vs).length := by
      simp [encode_items]
    have hpos := encode_length_pos v
    rw [hlen] at hfuel ⊢
    rw [hbuf] at hsize ⊢
    simp only [List.length_cons] at hfuel ⊢
    have hv := decode_encode_value v p (encode_items vs ++ r) (g + vs.length) hr.1 hsize
      (by omega)
    have hvs := decode_encode_items vs (p ++ encode v) r (acc ++ [normalize v]) g hr.2
      (by rw [← hbuf2]; exact hsize) (by omega)
    obtain ⟨c, rr, hc, hne⟩ := encode_head v
    have hidx : index (p ++ (encode v ++ (encode_items vs ++ r))) p.length = some c := by
      rw [hc]; exact index_past p c (rr ++ (encode_items vs ++ r))
    rw [show g + (vs.length + 1) = (g + vs.length) + 1 from rfl, decode_bencoded_list_loop,
      hidx]
    simp only [ne_eq, hne, not_false_eq_true, if_true, hv]
    rw [← hbuf2, List.length_append] at hvs
    rw [hvs, normalize_items]
    simp [Nat.add_assoc]

/-- The dictionary loop steps over encoded entries, one unit of fuel per entry. -/
theorem decode_encode_members : ∀ (ms : List (List Nat × json)) (p r : List Nat)
    (acc : List (List Nat × json)) (g : Nat),
    in_range_members ms = true →
    (p ++ (encode_members ms ++ r)).length < 9223372036854775808 →
    2 * (encode_members ms).length + 1 ≤ g + ms.length →
    decode_bencoded_dictionary_loop (g + ms.length) (p ++ (encode_members ms ++ r)) p.length acc
      = decode_bencoded_dictionary_loop g (p ++ (encode_members ms ++ r))
          (p.length + (encode_members ms).length) (normalize_members ms acc)
  | [], p, r, acc, g, _, _, _ => by simp [encode_members, normalize_members]
  | (k, v) :: ms, p, r, acc, g, hr, hsize, hfuel => by
    simp only [in_range_members, Bool.and_eq_true] at hr
    have hbuf : p ++ (encode_members ((k, v) :: ms) ++ r)
        = p ++ (encode_string k ++ (encode v ++ (encode_members ms ++ r))) := by
      simp [encode_members]
    have hbuf2 : p ++ (encode_string k ++ (encode v ++ (encode_members ms ++ r)))
        = (p ++ encode_string k) ++ (encode v ++ (encode_members ms ++ r)) := by simp
    have hbuf3 : (p ++ encode_string k) ++ (encode v ++ (encode_members ms ++ r))
        = (p ++ encode_string k ++ encode v) ++ (encode_members ms ++ r) := by simp
    have hlen : (encode_members ((k, v) :: ms)).length
        = (encode_string k).length + (encode v).length + (encode_members ms).length := by
      simp [encode_members, Nat.add_assoc]
    have hpos := encode_length_pos v
    rw [hlen] at hfuel ⊢
    rw [hbuf] at hsize ⊢
    simp only [List.length_cons] at hfuel ⊢
    have hk := decode_string_encoded p k (encode v ++ (encode_members ms ++ r)) hsize
    have hv := decode_encode_value v (p ++ encode_string k) (encode_members ms ++ r)
      (g + ms.length) hr.1 (by rw [← hbuf2]; exact hsize) (by omega)
    have hms := decode_encode_members ms (p ++ encode_string k ++ encode v) r
      (object_set acc k (normalize v)) g hr.2 (by rw [← hbuf3, ← hbuf2]; exact hsize) (by omega)
    obtain ⟨c, rr, hc, hd⟩ := encode_string_head k
    have hne : c ≠ 101 := by
      rintro rfl
      exact absurd hd (by decide)
    have hidx : index (p ++ (encode_string k ++ (encode v ++ (encode_members ms ++ r))))
        p.length = some c := by
      rw [hc]; exact index_past p c (rr ++ (encode v ++ (encode_members ms ++ r)))
    rw [show g + (ms.length + 1) = (g + ms.length) + 1 from rfl,
      decode_bencoded_dictionary_loop, hidx]
    simp only [ne_eq, hne, not_false_eq_true, if_true, hk]
    rw [← hbuf2, List.length_append] at hv
    rw [hv]
    simp only []
    rw [← hbuf3, ← hbuf2, List.length_append, List.length_append] at hms
    rw [hms, normalize_members]
    simp [Nat.add_assoc]

end

/-! ## The key order and the object map -/

theorem key_lt_irrefl (a : List Nat) : key_lt a a = false := by
  induction a with
  | nil => rfl
  | cons x xs ih => simp [key_lt, ih]

theorem key_lt_trichotomy : ∀ (a b : List Nat), key_lt a b = false → key_lt b a = false → a = b
  | [], [], _, _ => rfl
  | [], _ :: _, h, _ => by simp [key_lt] at h
  | _ :: _, [], _, h => by simp [key_lt] at h
  | x :: xs, y :: ys, h1, h2 => by
    simp only [key_lt, Bool.or_eq_false_iff, Bool.and_eq_false_imp, decide_eq_false_iff_not,
      decide_eq_true_eq] at h1 h2
    have hxy : x = y := by omega
    have := key_lt_trichotomy xs ys (h1.2 hxy) (h2.2 hxy.symm)
    rw [hxy, this]

theorem key_lt_trans : ∀ (a b c : List Nat), key_lt a b = true → key_lt b c = true →
    key_lt a c = true
  | _, [], _, h, _ => by simp [key_lt] at h
  | _, _ :: _, [], _, h => by simp [key_lt] at h
  | [], _ :: _, _ :: _, _, _ => by simp [key_lt]
  | x :: xs, y :: ys, z :: zs, h1, h2 => by
    simp only [key_lt, Bool.or_eq_true, Bool.and_eq_true, decide_eq_true_eq] at h1 h2 ⊢
    rcases h1 with h1 | ⟨h1, h1'⟩
    · rcases h2 with h2 | ⟨h2, _⟩
      · left; omega
      · left; omega
    · rcases h2 with h2 | ⟨h2, h2'⟩
      · left; omega
      · right; exact ⟨by omega, key_lt_trans xs ys zs h1' h2'⟩

theorem key_lt_ne (a b : List Nat) (h : key_lt a b = true) : a ≠ b := by
  rintro rfl
  rw [key_lt_irrefl] at h
  exact Bool.noConfusion h

theorem lookup_object_set (m : List (List Nat × json)) (k key : List Nat) (v : json) :
    lookup key (object_set m k v) = if k = key then some v else lookup key m := by
  induction m with
  | nil => simp [object_set, lookup]
  | cons e rest ih =>
    obtain ⟨k0, v0⟩ := e
    unfold object_set
    cases h1 : key_lt k k0 with
    | true =>
      simp only [if_true]
      rw [lookup]
    | false =>
      cases h2 : key_lt k0 k with
      | true =>
        simp only [Bool.false_eq_true, if_true, if_false]
        rw [lookup, ih, lookup]
        have hne := key_lt_ne k0 k h2
        by_cases e1 : k0 = key
        · have : k ≠ key := fun e => hne (e1.trans e.symm)
          simp [e1, this]
        · simp [e1]
      | false =>
        have hk : k = k0 := key_lt_trichotomy k k0 h1 h2
        subst hk
        simp only [Bool.false_eq_true, if_false]
        rw [lookup, lookup]
        by_cases e1 : k = key <;> simp [e1]

theorem mem_object_set (m : List (List Nat × json)) (k : List Nat) (v : json)
    (y : List Nat × json) : y ∈ object_set m k v → y = (k, v) ∨ y ∈ m := by
  induction m with
  | nil => intro h; simpa [object_set] using h
  | cons e rest ih =>
    obtain ⟨k0, v0⟩ := e
    intro h
    unfold object_set at h
    cases h1 : key_lt k k0 with
    | true =>
      simp only [h1, if_true, List.mem_cons] at h
      simp only [List.mem_cons]
      tauto
    | false =>
      cases h2 : key_lt k0 k with
      | true =>
        simp only [h1, h2, Bool.false_eq_true, if_true, if_false, List.mem_cons] at h
        simp only [List.mem_cons]
        rcases h with h | h
        · tauto
        · have := ih h
          tauto
      | false =>
        simp only [h1, h2, Bool.false_eq_true, if_false, List.mem_cons] at h
        simp only [List.mem_cons]
        tauto

theorem ascending_object_set (m : List (List Nat × json)) (k : List Nat) (v : json) :
    ascending_keys m → ascending_keys (object_set m k v) := by
  unfold ascending_keys
  induction m with
  | nil => intro _; simp [object_set]
  | cons e rest ih =>
    obtain ⟨k0, v0⟩ := e
    intro h
    rw [List.pairwise_cons] at h
    unfold object_set
    cases h1 : key_lt k k0 with
    | true =>
      simp only [if_true]
      refine List.Pairwise.cons ?_ (List.Pairwise.cons h.1 h.2)
      intro y hy
      rcases List.mem_cons.mp hy with rfl | hy
      · exact h1
      · exact key_lt_trans _ _ _ h1 (h.1 y hy)
    | false =>
      cases h2 : key_lt k0 k with
      | true =>
        simp only [Bool.false_eq_true, if_true, if_false]
        refine List.Pairwise.cons ?_ (ih h.2)
        intro y hy
        rcases mem_object_set rest k v y hy with rfl | hy
        · exact h2
        · exact h.1 y hy
      | false =>
        have hk : k = k0 := key_lt_trichotomy k k0 h1 h2
        subst hk
        simp only [Bool.false_eq_true, if_false]
        exact List.Pairwise.cons h.1 h.2

theorem perm_object_set (m : List (List Nat × json)) (k : List Nat) (v : json) :
    lookup k m = none → (object_set m k v).Perm ((k, v) :: m) := by
  induction m with
  | nil => intro _; simp [object_set]
  | cons e rest ih =>
    obtain ⟨k0, v0⟩ := e
    intro h
    rw [lookup] at h
    by_cases e1 : k0 = k
    · simp [e1] at h
    · simp only [e1, if_false] at h
      unfold object_set
      cases h1 : key_lt k k0 with
      | true =>
        simp only [if_true]
        exact List.Perm.refl _
      | false =>
        cases h2 : key_lt k0 k with
        | true =>
          simp only [Bool.false_eq_true, if_true, if_false]
          exact (List.Perm.cons _ (ih h)).trans (List.Perm.swap _ _ _)
        | false => exact absurd (key_lt_trichotomy k k0 h1 h2).symm e1

theorem lookup_eq_none_iff (key : List Nat) (m : List (List Nat × json)) :
    lookup key m = none ↔ key ∉ m.map Prod.fst := by
  induction m with
  | nil => simp [lookup]
  | cons e rest ih =>
    obtain ⟨k0, v0⟩ := e
    rw [lookup]
    by_cases e1 : k0 = key
    · simp [e1]
    · simp only [e1, if_false, ih, List.map_cons, List.mem_cons, not_or]
      exact ⟨fun h => ⟨fun e => e1 e.symm, h⟩, fun h => h.2⟩

theorem lookup_of_mem (m : List (List Nat × json)) (k : List Nat) (v : json) :
    (m.map Prod.fst).Nodup → (k, v) ∈ m → lookup k m = some v := by
  induction m with
  | nil => intro _ h; simp at h
  | cons e rest ih =>
    obtain ⟨k0, v0⟩ := e
    intro hnd h
    simp only [List.map_cons, List.nodup_cons] at hnd
    rw [lookup]
    rcases List.mem_cons.mp h with h | h
    · simp only [Prod.mk.injEq] at h
      simp [h.1, h.2]
    · have : k0 ≠ k := by
        rintro rfl
        exact hnd.1 (List.mem_map.mpr ⟨(k0, v), h, rfl⟩)
      simp only [this, if_false]
      exact ih hnd.2 h

theorem normalize_members_ascending (ms : List (List Nat × json)) :
    ∀ acc, ascending_keys acc → ascending_keys (normalize_members ms acc) := by
  induction ms with
  | nil => intro acc h; simpa [normalize_members] using h
  | cons e rest ih =>
    obtain ⟨k, v⟩ := e
    intro acc h
    rw [normalize_members]
    exact ih _ (ascending_object_set acc k _ h)

theorem normalize_members_perm (ms : List (List Nat × json)) :
    ∀ acc, (ms.map Prod.fst).Nodup → (∀ k ∈ ms.map Prod.fst, lookup k acc = none) →
      (normalize_members ms acc).Perm (ms.map (fun e => (e.1, normalize e.2)) ++ acc) := by
  induction ms with
  | nil => intro acc _ _; simp [normalize_members]
  | cons e rest ih =>
    obtain ⟨k, v⟩ := e
    intro acc hnd hacc
    simp only [List.map_cons, List.nodup_cons] at hnd
    rw [normalize_members]
    have hk : lookup k acc = none := hacc k (by simp)
    have h1 := ih (object_set acc k (normalize v)) hnd.2 (by
      intro k' hk'
      rw [lookup_object_set]
      have : k ≠ k' := by
        rintro rfl
        exact hnd.1 hk'
      simp only [this, if_false]
      exact hacc k' (by simp [hk']))
    refine h1.trans ?_
    refine ((perm_object_set acc k (normalize v) hk).append_left _).trans ?_
    simp only [List.map_cons, List.cons_append]
    exact List.perm_middle

theorem ascending_keys_nodup (m : List (List Nat × json)) (h : ascending_keys m) :
    (m.map Prod.fst).Nodup := by
  unfold ascending_keys at h
  rw [List.Nodup, List.pairwise_map]
  exact h.imp (fun hlt => key_lt_ne _ _ hlt)

/-- With pairwise distinct keys the map built from the entries has one entry
per listed entry and binds every listed key to its normalized value. -/
theorem normalize_members_bindings (ms : List (List Nat × json))
    (hnd : (ms.map Prod.fst).Nodup) :
    (normalize_members ms []).length = ms.length ∧
      ∀ k v, (k, v) ∈ ms → lookup k (normalize_members ms []) = some (normalize v) := by
  have hp := normalize_members_perm ms [] hnd (fun _ _ => rfl)
  rw [List.append_nil] at hp
  refine ⟨by simpa using hp.length_eq, ?_⟩
  intro k v hkv
  have hasc := normalize_members_ascending ms [] (by simp [ascending_keys])
  refine lookup_of_mem _ k (normalize v) (ascending_keys_nodup _ hasc) ?_
  exact hp.mem_iff.mpr (List.mem_map.mpr ⟨(k, v), hkv, rfl⟩)

mutual

/-- The map `json` holds for a tree with distinct keys has the bindings of the tree. -/
theorem same_bindings_normalize : ∀ (v : json), distinct_keys v = true →
    same_bindings v (normalize v) = true
  | .string s, _ => by simp [same_bindings, normalize]
  | .number_integer k, _ => by simp [same_bindings, normalize]
  | .array items, h => by
    simp only [distinct_keys] at h
    simp only [normalize, same_bindings]
    exact same_bindings_items_normalize items h
  | .object ms, h => by
    simp only [distinct_keys, Bool.and_eq_true, decide_eq_true_eq] at h
    obtain ⟨hlen, hlook⟩ := normalize_members_bindings ms h.1
    simp only [normalize, same_bindings, Bool.and_eq_true, decide_eq_true_eq]
    exact ⟨hlen, same_bindings_members_normalize ms _ h.2 hlook⟩

theorem same_bindings_items_normalize : ∀ (items : List json),
    distinct_keys_items items = true →
    same_bindings_items items (normalize_items items) = true
  | [], _ => by simp [same_bindings_items, normalize_items]
  | v :: vs, h => by
    simp only [distinct_keys_items, Bool.and_eq_true] at h
    simp only [normalize_items, same_bindings_items, Bool.and_eq_true]
    exact ⟨same_bindings_normalize v h.1, same_bindings_items_normalize vs h.2⟩

theorem same_bindings_members_normalize : ∀ (sub ns : List (List Nat × json)),
    distinct_keys_members sub = true →
    (∀ k v, (k, v) ∈ sub → lookup k ns = some (normalize v)) →
    same_bindings_members sub ns = true
  | [], _, _, _ => by simp [same_bindings_members]
  | (k, v) :: ms, ns, h, hl => by
    simp only [distinct_keys_members, Bool.and_eq_true] at h
    simp only [same_bindings_members, Bool.and_eq_true]
    refine ⟨?_, same_bindings_members_normalize ms ns h.2
      (fun k' v' hm => hl k' v' (List.mem_cons_of_mem _ hm))⟩
    rw [hl k v (List.mem_cons_self _ _)]
    exact same_bindings_normalize v h.1

end

/-! ## Claims on well-formed input -/

theorem encode_items_strings (ss : List (List Nat)) :
    encode_items (ss.map json.string) = encode_strings ss := by
  induction ss with
  | nil => rfl
  | cons s ss ih => simp only [List.map_cons, encode_items, encode, encode_strings, ih]

theorem normalize_items_strings (ss : List (List Nat)) :
    normalize_items (ss.map json.string) = ss.map json.string := by
  induction ss with
  | nil => rfl
  | cons s ss ih => simp only [List.map_cons, normalize_items, normalize, ih]

theorem in_range_items_strings (ss : List (List Nat)) :
    in_range_items (ss.map json.string) = true := by
  induction ss with
  | nil => rfl
  | cons s ss ih => simp only [List.map_cons, in_range_items, in_range, ih, Bool.and_self]

/-- C1. Round trip against the reference encoder, with exact consumption: for
every value tree `v` of Texts, Integers in the signed 64-bit range, Lists and
Dictionaries with pairwise distinct keys, every prefix `p` and suffix `t`,
the dispatcher run on `p ++ encode v ++ t` with the cursor at `|p|` returns
the tree `normalize v`, which is `v` with dictionaries compared as
key-to-value mappings (`same_bindings`), and leaves the cursor at exactly
`|p| + |encode v|`. -/
theorem roundtrip_exact_consumption (v : json) (p t : List Nat) (fuel : Nat)
    (hrange : in_range v = true) (hkeys : distinct_keys v = true)
    (hsize : (p ++ encode v ++ t).length < 2 ^ 63)
    (hfuel : 2 * (encode v).length ≤ fuel) :
    decode_bencoded_value fuel (p ++ encode v ++ t) p.length
        = .ok (normalize v) (p.length + (encode v).length)
      ∧ same_bindings v (normalize v) = true := by
  refine ⟨?_, same_bindings_normalize v hkeys⟩
  have h63 : (2 : Nat) ^ 63 = 9223372036854775808 := by norm_num
  rw [List.append_assoc, h63] at hsize
  rw [List.append_assoc]
  exact decode_encode_value v p t fuel hrange hsize hfuel

theorem roundtrip_exact_consumption_witness :
    in_range (.object [(bytes "b", .array [.number_integer (-4)]),
        (bytes "a", .string (bytes ":"))]) = true ∧
    distinct_keys (.object [(bytes "b", .array [.number_integer (-4)]),
        (bytes "a", .string (bytes ":"))]) = true ∧
    (bytes "l" ++ encode (.object [(bytes "b", .array [.number_integer (-4)]),
        (bytes "a", .string (bytes ":"))]) ++ bytes "e").length < 2 ^ 63 ∧
    2 * (encode (.object [(bytes "b", .array [.number_integer (-4)]),
        (bytes "a", .string (bytes ":"))])).length ≤ 34 ∧
    (decode_bencoded_value 34 (bytes "ld1:bli-4ee1:a1::ee") 1
        = .ok (.object [(bytes "a", .string (bytes ":")),
            (bytes "b", .array [.number_integer (-4)])]) 18
      ∧ same_bindings
          (.object [(bytes "b", .array [.number_integer (-4)]), (bytes "a", .string (bytes ":"))])
          (.object [(bytes "a", .string (bytes ":")), (bytes "b", .array [.number_integer (-4)])])
        = true) := by
  have h := roundtrip_exact_consumption
    (.object [(bytes "b", .array [.number_integer (-4)]), (bytes "a", .string (bytes ":"))])
    (bytes "l") (bytes "e") 34 (by decide) (by decide) (by decide) (by decide)
  exact ⟨by decide, by decide, by decide, by decide, h⟩

/-- C2. String rule on valid input: for every byte string `s` of length `n`
(it may contain `:` bytes) and every buffer of representable size that holds
`<canonical decimal of n>:<s>` at the cursor, after any prefix `p` and before
any suffix `t`, `decode_bencoded_string` returns the Text `s` and advances
the cursor by exactly `len(str(n)) + 1 + n`. -/
theorem string_rule_valid (s p t : List Nat) (n : Nat) (hn : s.length = n)
    (hsize : (p ++ (decimal n ++ 58 :: s) ++ t).length < 2 ^ 63) :
    decode_bencoded_string (p ++ (decimal n ++ 58 :: s) ++ t) p.length
      = .ok (.string s) (p.length + ((decimal n).length + 1 + n)) := by
  subst hn
  have h := decode_string_encoded p s t
    (by rw [← List.append_assoc]; simpa [encode_string] using hsize)
  rw [← List.append_assoc, encode_string_length] at h
  exact h

theorem string_rule_valid_witness :
    (bytes "a:b").length = 3 ∧
    (bytes "l" ++ (decimal 3 ++ 58 :: bytes "a:b") ++ bytes "e").length < 2 ^ 63 ∧
    decode_bencoded_string (bytes "l3:a:be") 1 = .ok (.string (bytes "a:b")) 6 :=
  ⟨by decide, by decide,
    string_rule_valid (bytes "a:b") (bytes "l") (bytes "e") 3 (by decide) (by decide)⟩

/-- C3. Integer rule on valid input: for every `k` in the signed 64-bit range
(negative values, zero, the minimum and the maximum included), decoding a
buffer that holds `i<decimal of k>e` at the cursor yields the Integer `k` and
leaves the cursor right after the terminating `e`. -/
theorem integer_rule_valid (k : Int) (p t : List Nat)
    (hmin : LLONG_MIN ≤ k) (hmax : k ≤ LLONG_MAX)
    (hsize : (p ++ (105 :: decimal_int k ++ [101]) ++ t).length < 2 ^ 64) :
    decode_bencoded_integer (p ++ (105 :: decimal_int k ++ [101]) ++ t) p.length
      = .ok (.number_integer k) (p.length + (105 :: decimal_int k ++ [101]).length) := by
  have e : p ++ (105 :: decimal_int k ++ [101]) ++ t
      = p ++ (105 :: (decimal_int k ++ 101 :: t)) := by simp
  rw [e] at hsize ⊢
  rw [decode_integer_encoded p t k hmin hmax (by simpa using hsize)]
  congr 1
  simp; omega

theorem integer_rule_valid_witness :
    LLONG_MIN ≤ -42 ∧ (-42 : Int) ≤ LLONG_MAX ∧
    (bytes "l" ++ (105 :: decimal_int (-42) ++ [101]) ++ bytes "e").length < 2 ^ 64 ∧
    decode_bencoded_integer (bytes "li-42ee") 1 = .ok (.number_integer (-42)) 6 :=
  ⟨by decide, by decide, by decide, by
    exact integer_rule_valid (-42) (bytes "l") (bytes "e") (by decide) (by decide) (by decide)⟩

/-- C4. List rule preserves encoded order: for every sequence of byte strings
`s1..sn` (`n ≥ 0`), decoding `l` `enc(s1)` .. `enc(sn)` `e` with the list rule
yields the List of exactly the `n` Texts `s1..sn` in that order, the cursor
left right after the terminating `e`; `le` gives the empty List. -/
theorem list_rule_preserves_order (ss : List (List Nat)) (p t : List Nat) (fuel : Nat)
    (hsize : (p ++ (108 :: encode_strings ss ++ [101]) ++ t).length < 2 ^ 63)
    (hfuel : 2 * (encode_strings ss).length + 3 ≤ fuel) :
    decode_bencoded_list fuel (p ++ (108 :: encode_strings ss ++ [101]) ++ t) p.length
      = .ok (.array (ss.map json.string))
          (p.length + (108 :: encode_strings ss ++ [101]).length) := by
  have hn := items_length_le (ss.map json.string)
  rw [encode_items_strings, List.length_map] at hn
  obtain ⟨g, rfl⟩ : ∃ g, fuel = g + 1 + ss.length + 1 :=
    ⟨fuel - ss.length - 2, by omega⟩
  have e : p ++ (108 :: encode_strings ss ++ [101]) ++ t
      = (p ++ [108]) ++ (encode_items (ss.map json.string) ++ 101 :: t) := by
    simp [encode_items_strings]
  have e3 : (p ++ [108]) ++ (encode_items (ss.map json.string) ++ 101 :: t)
      = (p ++ [108] ++ encode_items (ss.map json.string)) ++ 101 :: t := by simp
  have hsz : p.length + (encode_strings ss).length + 2 + t.length < 9223372036854775808 := by
    have := hsize
    simp only [List.length_append, List.length_cons, List.length_nil] at this
    norm_num at this
    omega
  have step := decode_encode_items (ss.map json.string) (p ++ [108]) (101 :: t) []
    (g + 1) (in_range_items_strings ss)
    (by simp only [List.length_append, List.length_cons, encode_items_strings,
          List.length_nil]; omega)
    (by rw [encode_items_strings, List.length_map]; omega)
  simp only [List.length_append, List.length_singleton, List.nil_append, List.length_map,
    normalize_items_strings] at step
  rw [e, decode_bencoded_list, mod_size (p.length + 1) (by omega), step, e3]
  have e4 : p.length + 1 + (encode_items (ss.map json.string)).length
      = (p ++ [108] ++ encode_items (ss.map json.string)).length := by
    simp only [List.length_append, List.length_singleton]
  rw [e4, list_loop_at_end g _ t _
    (by simp only [List.length_append, List.length_cons, encode_items_strings,
          List.length_nil]; omega)]
  congr 1
  simp [encode_items_strings]; omega

theorem list_rule_preserves_order_witness :
    ((bytes "" ++ (108 :: encode_strings [bytes "spam", bytes "eggs"] ++ [101])
        ++ bytes "").length < 2 ^ 63) ∧
    (2 * (encode_strings [bytes "spam", bytes "eggs"]).length + 3 ≤ 27) ∧
    decode_bencoded_list 27 (bytes "l4:spam4:eggse") 0
      = .ok (.array [.string (bytes "spam"), .string (bytes "eggs")]) 14 :=
  ⟨by decide, by decide,
    list_rule_preserves_order [bytes "spam", bytes "eggs"] (bytes "") (bytes "") 27
      (by decide) (by decide)⟩

/-! ## Claims on dictionaries, malformed input and errors -/

theorem dispatch_list (f : Nat) (buf : List Nat) (pos : Nat) (h : index buf pos = some 108) :
    decode_bencoded_value (f + 1) buf pos = decode_bencoded_list f buf pos := by
  rw [decode_bencoded_value, h]
  simp only [show isdigit 108 = false from by decide, Bool.false_eq_true, if_false,
    show (108 : Nat) ≠ 105 from by decide, if_true]

theorem dispatch_dictionary (f : Nat) (buf : List Nat) (pos : Nat)
    (h : index buf pos = some 100) :
    decode_bencoded_value (f + 1) buf pos = decode_bencoded_dictionary f buf pos := by
  rw [decode_bencoded_value, h]
  simp only [show isdigit 100 = false from by decide, Bool.false_eq_true, if_false,
    show (100 : Nat) ≠ 105 from by decide, show (100 : Nat) ≠ 108 from by decide, if_true]

/-- The dictionary rule on encoded entries returns the map built by assigning
them in order. -/
theorem decode_dictionary_encoded (ms : List (List Nat × json)) (p t : List Nat) (fuel : Nat)
    (hrange : in_range_members ms = true)
    (hsize : (p ++ (100 :: encode_members ms ++ [101]) ++ t).length < 9223372036854775808)
    (hfuel : 2 * (encode_members ms).length + 3 ≤ fuel) :
    decode_bencoded_dictionary fuel (p ++ (100 :: encode_members ms ++ [101]) ++ t) p.length
      = .ok (.object (normalize_members ms []))
          (p.length + (100 :: encode_members ms ++ [101]).length) := by
  have hv := decode_encode_value (.object ms) p t (fuel + 1) (by simpa [in_range] using hrange)
    (by rw [← List.append_assoc]; simpa [encode] using hsize)
    (by simp [encode]; omega)
  have hidx : index (p ++ (encode (.object ms) ++ t)) p.length = some 100 := by
    simp only [encode, List.cons_append]
    exact index_past p 100 _
  rw [dispatch_dictionary fuel _ _ hidx, ← List.append_assoc] at hv
  simpa [encode, normalize] using hv

theorem ascending_perm_unique (a b : List (List Nat × json)) (hp : a.Perm b)
    (ha : ascending_keys a) (hb : ascending_keys b) : a = b := by
  have hanti : IsAntisymm (List Nat × json) (fun x y => key_lt x.1 y.1 = true) :=
    ⟨fun a b h1 h2 => by
      have h := key_lt_trans _ _ _ h1 h2
      rw [key_lt_irrefl] at h
      exact Bool.noConfusion h⟩
  exact List.eq_of_perm_of_sorted hp ha hb

/-- C5 (amended). Dictionary rule and key order: for every dictionary encoding
`d k1 v1 .. kn vn e` with pairwise distinct string keys and well-formed
values, the decoded Dictionary holds exactly the pairs `(k1,v1)..(kn,vn)`,
arranged in ascending byte-wise key order whatever their order in the input;
it is the input order exactly when the input keys already ascend. -/
theorem dictionary_rule_key_order (ms : List (List Nat × json)) (p t : List Nat) (fuel : Nat)
    (hkeys : (ms.map Prod.fst).Nodup) (hrange : in_range_members ms = true)
    (hsize : (p ++ (100 :: encode_members ms ++ [101]) ++ t).length < 2 ^ 63)
    (hfuel : 2 * (encode_members ms).length + 3 ≤ fuel) :
    ∃ ns, decode_bencoded_dictionary fuel (p ++ (100 :: encode_members ms ++ [101]) ++ t)
          p.length
        = .ok (.object ns) (p.length + (100 :: encode_members ms ++ [101]).length)
      ∧ ascending_keys ns
      ∧ ns.Perm (ms.map (fun e => (e.1, normalize e.2)))
      ∧ (ascending_keys ms → ns = ms.map (fun e => (e.1, normalize e.2))) := by
  have h63 : (2 : Nat) ^ 63 = 9223372036854775808 := by norm_num
  rw [h63] at hsize
  have hasc := normalize_members_ascending ms [] (by simp [ascending_keys])
  have hperm := normalize_members_perm ms [] hkeys (fun _ _ => rfl)
  rw [List.append_nil] at hperm
  refine ⟨normalize_members ms [], decode_dictionary_encoded ms p t fuel hrange hsize hfuel,
    hasc, hperm, fun hms => ascending_perm_unique _ _ hperm hasc ?_⟩
  unfold ascending_keys at hms ⊢
  rw [List.pairwise_map]
  exact hms

theorem dictionary_rule_key_order_witness :
    ([(bytes "spam", json.string (bytes "eggs")), (bytes "cow", json.string (bytes "moo"))].map
        Prod.fst).Nodup ∧
    in_range_members [(bytes "spam", json.string (bytes "eggs")),
        (bytes "cow", json.string (bytes "moo"))] = true ∧
    (bytes "" ++ (100 :: encode_members [(bytes "spam", json.string (bytes "eggs")),
        (bytes "cow", json.string (bytes "moo"))] ++ [101]) ++ bytes "").length < 2 ^ 63 ∧
    2 * (encode_members [(bytes "spam", json.string (bytes "eggs")),
        (bytes "cow", json.string (bytes "moo"))]).length + 3 ≤ 47 ∧
    ∃ ns, decode_bencoded_dictionary 47 (bytes "d4:spam4:eggs3:cow3:mooe") 0
        = .ok (.object ns) 24
      ∧ ascending_keys ns
      ∧ ns.Perm [(bytes "spam", json.string (bytes "eggs")),
          (bytes "cow", json.string (bytes "moo"))]
      ∧ (ascending_keys [(bytes "spam", json.string (bytes "eggs")),
            (bytes "cow", json.string (bytes "moo"))] →
          ns = [(bytes "spam", json.string (bytes "eggs")),
            (bytes "cow", json.string (bytes "moo"))]) := by
  have h := dictionary_rule_key_order
    [(bytes "spam", json.string (bytes "eggs")), (bytes "cow", json.string (bytes "moo"))]
    (bytes "") (bytes "") 47 (by decide) (by decide) (by decide) (by decide)
  exact ⟨by decide, by decide, by decide, by decide, h⟩

/-- C5 (counterexample). On `d4:spam4:eggs3:cow3:mooe` the dictionary rule
returns the entries with `cow` before `spam`, not in the order of the input. -/
theorem dictionary_encounter_order_counterexample :
    decode_bencoded_dictionary 8 (bytes "d4:spam4:eggs3:cow3:mooe") 0
      = .ok (.object [(bytes "cow", .string (bytes "moo")),
          (bytes "spam", .string (bytes "eggs"))]) 24
    ∧ decode_bencoded_dictionary 8 (bytes "d4:spam4:eggs3:cow3:mooe") 0
      ≠ .ok (.object [(bytes "spam", .string (bytes "eggs")),
          (bytes "cow", .string (bytes "moo"))]) 24 := by
  refine ⟨rfl, fun h => ?_⟩
  have h' : Outcome.ok (.object [(bytes "cow", .string (bytes "moo")),
      (bytes "spam", .string (bytes "eggs"))]) 24
      = Outcome.ok (.object [(bytes "spam", .string (bytes "eggs")),
          (bytes "cow", .string (bytes "moo"))]) 24 := h
  injection h' with h1 _
  injection h1 with h2
  injection h2 with h3 _
  injection h3 with h4 _
  exact absurd h4 (by decide)

theorem atoll_bounds (s : List Nat) : LLONG_MIN ≤ atoll s ∧ atoll s ≤ LLONG_MAX := by
  unfold atoll
  cases strtoll_scan s with
  | none => simp only [LLONG_MIN, LLONG_MAX]; omega
  | some x =>
    simp only [LLONG_MIN, LLONG_MAX]
    split_ifs <;> omega

/-- C6 (amended). String length beyond the buffer: for every buffer of
representable size and cursor where the string rule finds a `:` at `colon`
and parses the length `n`, if `colon + 1 + n` exceeds the buffer length then
decoding does not fail: it returns the truncated Text made of the bytes that
remain after the `:` (fewer than `n`) and leaves the cursor at
`colon + 1 + n`, beyond the end of the buffer. -/
theorem string_rule_overshoot (buf : List Nat) (pos colon n : Nat)
    (hsize : buf.length < 2 ^ 63)
    (hfind : find buf 58 pos = some colon)
    (hparse : atoll ((buf.drop pos).take (colon - pos)) = (n : Int))
    (hover : buf.length < colon + 1 + n) :
    decode_bencoded_string buf pos = .ok (.string (buf.drop (colon + 1))) (colon + 1 + n)
      ∧ (buf.drop (colon + 1)).length < n := by
  have h63 : (2 : Nat) ^ 63 = 9223372036854775808 := by norm_num
  rw [h63] at hsize
  obtain ⟨hle, hlt, _⟩ := find_some buf 58 pos colon hfind
  have hb := atoll_bounds ((buf.drop pos).take (colon - pos))
  rw [hparse] at hb
  simp only [LLONG_MAX] at hb
  have hsub1 : substr buf pos (colon - pos) = some ((buf.drop pos).take (colon - pos)) := by
    simp only [substr, show ¬ buf.length < pos from by omega, if_false]
  have hsub2 : substr buf (colon + 1) n = some (buf.drop (colon + 1)) := by
    simp only [substr, show ¬ buf.length < colon + 1 from by omega, if_false]
    rw [List.take_of_length_le (by simp only [List.length_drop]; omega)]
  refine ⟨?_, by simp only [List.length_drop]; omega⟩
  unfold decode_bencoded_string
  rw [hfind]
  simp only [hsub1, hparse]
  rw [size_t_natCast n (by omega)]
  simp only [hsub2]
  have e : (colon : Int) + 1 + (n : Int) = ((colon + 1 + n : Nat) : Int) := by push_cast; ring
  rw [e, size_t_natCast _ (by omega)]

theorem string_rule_overshoot_witness :
    (bytes "5:ab").length < 2 ^ 63 ∧
    find (bytes "5:ab") 58 0 = some 1 ∧
    atoll (((bytes "5:ab").drop 0).take (1 - 0)) = ((5 : Nat) : Int) ∧
    (bytes "5:ab").length < 1 + 1 + 5 ∧
    (decode_bencoded_string (bytes "5:ab") 0 = .ok (.string (bytes "ab")) 7
      ∧ (bytes "ab").length < 5) := by
  have h := string_rule_overshoot (bytes "5:ab") 0 1 5 (by decide) (by decide) (by decide)
    (by decide)
  exact ⟨by decide, by decide, by decide, by decide, h⟩

/-- C6 (counterexample). On `5:ab` the string rule does not fail: it returns
the two-byte Text `ab` and the cursor `7`, beyond the four-byte buffer. -/
theorem string_length_bound_counterexample :
    decode_bencoded_string (bytes "5:ab") 0 = .ok (.string (bytes "ab")) 7
      ∧ (bytes "5:ab").length < 7 :=
  ⟨rfl, by decide⟩

theorem list_loop_at_buffer_end (g : Nat) (buf : List Nat) (acc : List json) :
    decode_bencoded_list_loop (g + 2) buf buf.length acc = .throws .runtime_error := by
  rw [decode_bencoded_list_loop, index_at_end]
  simp only [ne_eq, show ¬ (0 : Nat) = 101 from by decide, not_false_eq_true, if_true]
  rw [decode_bencoded_value, index_at_end]
  simp only [show isdigit 0 = false from by decide, Bool.false_eq_true, if_false,
    show (0 : Nat) ≠ 105 from by decide, show (0 : Nat) ≠ 108 from by decide,
    show (0 : Nat) ≠ 100 from by decide]

theorem dictionary_loop_at_buffer_end (g : Nat) (buf : List Nat)
    (acc : List (List Nat × json)) :
    decode_bencoded_dictionary_loop (g + 1) buf buf.length acc = .throws .runtime_error := by
  rw [decode_bencoded_dictionary_loop, index_at_end]
  simp only [ne_eq, show ¬ (0 : Nat) = 101 from by decide, not_false_eq_true, if_true]
  have hf : find buf 58 buf.length = none := find_eq_none buf 58 buf.length (by simp)
  simp only [decode_bencoded_string, hf]

/-- C7 (amended). Unterminated containers that end with the buffer: for every
buffer that ends, with no terminating `e`, right after the last complete
element of a list (or the last complete key/value entry of a dictionary)
opened at the cursor, decoding fails with an error; the only read outside the
content is the string's terminating NUL at index `length`, so no byte beyond
the buffer is inspected. -/
theorem unterminated_container_fails (items : List json) (ms : List (List Nat × json))
    (p : List Nat) (fuel : Nat)
    (hitems : in_range_items items = true) (hms : in_range_members ms = true)
    (hsize : (p ++ 108 :: encode_items items).length < 2 ^ 63
      ∧ (p ++ 100 :: encode_members ms).length < 2 ^ 63)
    (hfuel : 2 * (encode_items items).length + 4 ≤ fuel
      ∧ 2 * (encode_members ms).length + 4 ≤ fuel) :
    decode_bencoded_list fuel (p ++ 108 :: encode_items items) p.length
        = .throws .runtime_error
      ∧ decode_bencoded_dictionary fuel (p ++ 100 :: encode_members ms) p.length
        = .throws .runtime_error := by
  have h63 : (2 : Nat) ^ 63 = 9223372036854775808 := by norm_num
  rw [h63] at hsize
  obtain ⟨hs1, hs2⟩ := hsize
  obtain ⟨hf1, hf2⟩ := hfuel
  simp only [List.length_append, List.length_cons] at hs1 hs2
  constructor
  · have hn := items_length_le items
    obtain ⟨g, rfl⟩ : ∃ g, fuel = g + 2 + items.length + 1 :=
      ⟨fuel - items.length - 3, by omega⟩
    have e : p ++ 108 :: encode_items items = (p ++ [108]) ++ (encode_items items ++ []) := by
      simp
    have step := decode_encode_items items (p ++ [108]) [] [] (g + 2) hitems
      (by simp only [List.length_append, List.length_singleton, List.length_nil]; omega)
      (by omega)
    have hend : p.length + 1 + (encode_items items).length
        = ((p ++ [108]) ++ (encode_items items ++ [])).length := by
      simp only [List.length_append, List.length_singleton, List.length_nil]; omega
    simp only [List.length_append, List.length_singleton] at step
    rw [e, decode_bencoded_list, mod_size (p.length + 1) (by omega), step, hend]
    exact list_loop_at_buffer_end g _ _
  · have hn := members_length_le ms
    obtain ⟨g, rfl⟩ : ∃ g, fuel = g + 1 + ms.length + 1 :=
      ⟨fuel - ms.length - 2, by omega⟩
    have e : p ++ 100 :: encode_members ms = (p ++ [100]) ++ (encode_members ms ++ []) := by
      simp
    have step := decode_encode_members ms (p ++ [100]) [] [] (g + 1) hms
      (by simp only [List.length_append, List.length_singleton, List.length_nil]; omega)
      (by omega)
    have hend : p.length + 1 + (encode_members ms).length
        = ((p ++ [100]) ++ (encode_members ms ++ [])).length := by
      simp only [List.length_append, List.length_singleton, List.length_nil]; omega
    simp only [List.length_append, List.length_singleton] at step
    rw [e, decode_bencoded_dictionary, mod_size (p.length + 1) (by omega), step, hend]
    exact dictionary_loop_at_buffer_end g _ _

theorem unterminated_container_fails_witness :
    in_range_items [json.string (bytes "spam")] = true ∧
    in_range_members [(bytes "cow", json.string (bytes "moo"))] = true ∧
    ((bytes "" ++ 108 :: encode_items [json.string (bytes "spam")]).length < 2 ^ 63
      ∧ (bytes "" ++ 100 :: encode_members [(bytes "cow", json.string (bytes "moo"))]).length
        < 2 ^ 63) ∧
    (2 * (encode_items [json.string (bytes "spam")]).length + 4 ≤ 24
      ∧ 2 * (encode_members [(bytes "cow", json.string (bytes "moo"))]).length + 4 ≤ 24) ∧
    (decode_bencoded_list 24 (bytes "l4:spam") 0 = .throws .runtime_error
      ∧ decode_bencoded_dictionary 24 (bytes "d3:cow3:moo") 0 = .throws .runtime_error) := by
  have h := unterminated_container_fails [json.string (bytes "spam")]
    [(bytes "cow", json.string (bytes "moo"))] (bytes "") 24 (by decide) (by decide)
    (by decide) (by decide)
  exact ⟨by decide, by decide, by decide, by decide, h⟩

/-- C7 (counterexample). On `l5:ab` the inner string overshoots the end of the
buffer and the list loop then reads index `8` of a five-byte buffer: an
out-of-range read, not an error. -/
theorem unterminated_container_counterexample :
    decode_bencoded_value 4 (bytes "l5:ab") 0 = .undefined_read 8
      ∧ (bytes "l5:ab").length < 8 :=
  ⟨rfl, by decide⟩

theorem index_of_getElem? (buf : List Nat) (pos c : Nat) (h : buf[pos]? = some c) :
    index buf pos = some c := by
  simp only [index, h]

/-- C8. Unknown tag is rejected: for every buffer and every in-bounds cursor
whose byte is not an ASCII digit, `i`, `l` or `d`, the dispatcher fails with
an error and returns no value; the same holds for the empty buffer at
cursor `0`. -/
theorem unknown_tag_rejected (buf : List Nat) (pos c fuel : Nat)
    (hc : buf[pos]? = some c) (hdigit : isdigit c = false)
    (hi : c ≠ 105) (hl : c ≠ 108) (hd : c ≠ 100) :
    decode_bencoded_value (fuel + 1) buf pos = .throws .runtime_error
      ∧ decode_bencoded_value (fuel + 1) [] 0 = .throws .runtime_error := by
  constructor
  · rw [decode_bencoded_value, index_of_getElem? buf pos c hc]
    simp only [hdigit, Bool.false_eq_true, if_false, hi, hl, hd]
  · rfl

theorem unknown_tag_rejected_witness :
    (bytes "x")[0]? = some 120 ∧ isdigit 120 = false ∧ (120 : Nat) ≠ 105 ∧ (120 : Nat) ≠ 108 ∧
    (120 : Nat) ≠ 100 ∧
    (decode_bencoded_value (0 + 1) (bytes "x") 0 = .throws .runtime_error
      ∧ decode_bencoded_value (0 + 1) [] 0 = .throws .runtime_error) := by
  have h := unknown_tag_rejected (bytes "x") 0 120 0 (by decide) (by decide) (by decide)
    (by decide) (by decide)
  exact ⟨by decide, by decide, by decide, by decide, by decide, h⟩

/-- C9. Unterminated integer is rejected: for every buffer of representable
size and cursor positioned on an `i` such that no `e` byte occurs anywhere
after that `i`, the integer rule fails with an error. -/
theorem unterminated_integer_rejected (buf : List Nat) (pos : Nat)
    (hi : buf[pos]? = some 105) (hsize : buf.length < 2 ^ 64)
    (hno : 101 ∉ buf.drop (pos + 1)) :
    decode_bencoded_integer buf pos = .throws .invalid_argument := by
  have h64 : (2 : Nat) ^ 64 = 18446744073709551616 := by norm_num
  rw [h64] at hsize
  have hpos : pos < buf.length := by
    by_contra hge
    rw [List.getElem?_eq_none (by omega)] at hi
    exact Option.noConfusion hi
  unfold decode_bencoded_integer
  simp only [mod_size (pos + 1) (by omega), find_eq_none buf 101 (pos + 1) hno]

theorem unterminated_integer_rejected_witness :
    (bytes "i42")[0]? = some 105 ∧ (bytes "i42").length < 2 ^ 64 ∧
    101 ∉ (bytes "i42").drop (0 + 1) ∧
    decode_bencoded_integer (bytes "i42") 0 = .throws .invalid_argument := by
  have h := unterminated_integer_rejected (bytes "i42") 0 (by decide) (by decide) (by decide)
  exact ⟨by decide, by decide, by decide, h⟩

/-- The integer rule on a body free of `e`: the outcome is that of `stoll` on
the body, the cursor going right after the terminating `e`. -/
theorem decode_integer_body (p body t : List Nat) (he : 101 ∉ body)
    (hsize : (p ++ (105 :: (body ++ 101 :: t))).length < 18446744073709551616) :
    decode_bencoded_integer (p ++ (105 :: (body ++ 101 :: t))) p.length
      = match stoll body with
        | .error e => .throws e
        | .ok k => .ok (.number_integer k) (p.length + (1 + body.length + 1)) := by
  simp only [List.length_append, List.length_cons] at hsize
  have e : p ++ (105 :: (body ++ 101 :: t)) = (p ++ [105]) ++ (body ++ 101 :: t) := by simp
  have e2 : p.length + 1 = (p ++ [105]).length := by simp
  have hfind : find (p ++ (105 :: (body ++ 101 :: t))) 101 (p.length + 1)
      = some (p.length + 1 + body.length) := by
    rw [e, e2, find_past _ _ _ 101 he]
  have hsub : substr (p ++ (105 :: (body ++ 101 :: t))) (p.length + 1)
      (p.length + 1 + body.length - (p.length + 1)) = some body := by
    rw [Nat.add_sub_cancel_left, e, e2]
    exact substr_past _ _ _
  unfold decode_bencoded_integer
  have hp : (p.length + 1) % SIZE_MOD = p.length + 1 := mod_size _ (by omega)
  have hq : (p.length + 1 + body.length + 1) % SIZE_MOD = p.length + 1 + body.length + 1 :=
    mod_size _ (by omega)
  simp only [hp, hfind, hsub, hq]
  cases stoll body with
  | error e => rfl
  | ok k =>
    simp only []
    congr 1
    omega

/-- C11. Empty integer body and lone minus sign are rejected: decoding `ie`
and decoding `i-e`, at any cursor and with any surrounding bytes, both fail
with an error and return no Integer. -/
theorem empty_body_and_lone_minus_rejected (p t : List Nat)
    (hsize : (p ++ bytes "i-e" ++ t).length < 2 ^ 64) :
    decode_bencoded_integer (p ++ bytes "ie" ++ t) p.length = .throws .invalid_argument
      ∧ decode_bencoded_integer (p ++ bytes "i-e" ++ t) p.length
        = .throws .invalid_argument := by
  have h64 : (2 : Nat) ^ 64 = 18446744073709551616 := by norm_num
  rw [h64] at hsize
  have hb : bytes "i-e" = [105, 45, 101] := by decide
  have hb' : bytes "ie" = [105, 101] := by decide
  rw [hb] at hsize ⊢
  rw [hb']
  simp only [List.length_append, List.length_cons, List.length_nil] at hsize
  constructor
  · have e : p ++ [105, 101] ++ t = p ++ (105 :: ([] ++ 101 :: t)) := by simp
    rw [e, decode_integer_body p [] t (by simp)
      (by simp only [List.length_append, List.length_cons, List.length_nil]; omega)]
    rfl
  · have e : p ++ [105, 45, 101] ++ t = p ++ (105 :: ([45] ++ 101 :: t)) := by simp
    rw [e, decode_integer_body p [45] t (by decide)
      (by simp only [List.length_append, List.length_cons, List.length_nil]; omega)]
    rfl

theorem empty_body_and_lone_minus_rejected_witness :
    (bytes "l" ++ bytes "i-e" ++ bytes "4:spame").length < 2 ^ 64 ∧
    (decode_bencoded_integer (bytes "lie4:spame") 1 = .throws .invalid_argument
      ∧ decode_bencoded_integer (bytes "li-e4:spame") 1 = .throws .invalid_argument) := by
  have h := empty_body_and_lone_minus_rejected (bytes "l") (bytes "4:spame") (by decide)
  exact ⟨by decide, h⟩

theorem not_mem_of_isdigit (ds : List Nat) (c : Nat) (hd : ∀ d ∈ ds, isdigit d = true)
    (hc : isdigit c = false) : c ∉ ds := by
  intro h
  rw [hd c h] at hc
  exact Bool.noConfusion hc

/-- The conversion `stoll` on an unsigned or `-`-signed run of digits: the
exact value when it fits `long long`, `out_of_range` otherwise. -/
theorem stoll_digits (ds : List Nat) (neg : Bool) (hne : ds ≠ [])
    (hd : ∀ d ∈ ds, isdigit d = true) :
    stoll (if neg then 45 :: ds else ds)
      = if (if neg then -(digits_value ds : Int) else (digits_value ds : Int)) < LLONG_MIN
            ∨ LLONG_MAX < (if neg then -(digits_value ds : Int) else (digits_value ds : Int))
        then .error .out_of_range
        else .ok (if neg then -(digits_value ds : Int) else (digits_value ds : Int)) := by
  cases neg with
  | true =>
    have h := strtoll_scan_neg_digits ds [] hne hd (by simp)
    rw [List.append_nil] at h
    simp only [if_true, stoll, h]
  | false =>
    have h := strtoll_scan_digits ds [] hne hd (by simp)
    rw [List.append_nil] at h
    simp only [Bool.false_eq_true, if_false, stoll, h]

/-- C17. Leading zeros and negative zero are accepted by the integer rule:
for every non-empty run `ds` of ASCII digits whose value fits in signed 64
bits, with any number of leading zeros, `i<ds>e` decodes to the Integer
`value of ds` and `i-<ds>e` to the Integer `-(value of ds)`. -/
theorem leading_zeros_accepted (ds p t : List Nat) (hne : ds ≠ [])
    (hd : ∀ d ∈ ds, isdigit d = true) (hfit : (digits_value ds : Int) ≤ LLONG_MAX)
    (hsize : (p ++ (105 :: 45 :: ds ++ [101]) ++ t).length < 2 ^ 64) :
    decode_bencoded_integer (p ++ (105 :: ds ++ [101]) ++ t) p.length
        = .ok (.number_integer (digits_value ds)) (p.length + (105 :: ds ++ [101]).length)
      ∧ decode_bencoded_integer (p ++ (105 :: 45 :: ds ++ [101]) ++ t) p.length
        = .ok (.number_integer (-(digits_value ds : Int)))
            (p.length + (105 :: 45 :: ds ++ [101]).length) := by
  have h64 : (2 : Nat) ^ 64 = 18446744073709551616 := by norm_num
  rw [h64] at hsize
  simp only [List.length_append, List.length_cons, List.length_nil] at hsize
  simp only [LLONG_MAX] at hfit
  have he : 101 ∉ ds := not_mem_of_isdigit ds 101 hd (by decide)
  constructor
  · have e : p ++ (105 :: ds ++ [101]) ++ t = p ++ (105 :: (ds ++ 101 :: t)) := by simp
    have hs := stoll_digits ds false hne hd
    simp only [Bool.false_eq_true, if_false] at hs
    rw [e, decode_integer_body p ds t he
      (by simp only [List.length_append, List.length_cons]; omega), hs]
    have hr : ¬ ((digits_value ds : Int) < LLONG_MIN ∨ LLONG_MAX < (digits_value ds : Int)) := by
      simp only [LLONG_MIN, LLONG_MAX]; omega
    simp only [hr, if_false]
    congr 1
    simp only [List.length_append, List.length_cons, List.length_nil]; omega
  · have e : p ++ (105 :: 45 :: ds ++ [101]) ++ t = p ++ (105 :: ((45 :: ds) ++ 101 :: t)) := by
      simp
    have hs := stoll_digits ds true hne hd
    simp only [if_true] at hs
    rw [e, decode_integer_body p (45 :: ds) t
      (by simp only [List.mem_cons, not_or]; exact ⟨by decide, he⟩)
      (by simp only [List.length_append, List.length_cons]; omega), hs]
    have hr : ¬ (-(digits_value ds : Int) < LLONG_MIN ∨ LLONG_MAX < -(digits_value ds : Int)) := by
      simp only [LLONG_MIN, LLONG_MAX]; omega
    simp only [hr, if_false]
    congr 1
    simp only [List.length_append, List.length_cons, List.length_nil]; omega

theorem leading_zeros_accepted_witness :
    bytes "003" ≠ [] ∧ (∀ d ∈ bytes "003", isdigit d = true) ∧
    ((digits_value (bytes "003") : Nat) : Int) ≤ LLONG_MAX ∧
    (bytes "l" ++ (105 :: 45 :: bytes "003" ++ [101]) ++ bytes "e").length < 2 ^ 64 ∧
    (decode_bencoded_integer (bytes "li003ee") 1 = .ok (.number_integer 3) 6
      ∧ decode_bencoded_integer (bytes "li-003ee") 1 = .ok (.number_integer (-3)) 7) := by
  have h := leading_zeros_accepted (bytes "003") (bytes "l") (bytes "e") (by decide)
    (by decide) (by decide) (by decide)
  exact ⟨by decide, by decide, by decide, by decide, h⟩

/-- C18. Integer overflow fails instead of wrapping: for every non-empty run
`ds` of decimal digits, optionally preceded by `-`, whose numeric value lies
outside the signed 64-bit range, decoding `i<digits>e` fails with an error;
and whenever the integer rule returns an Integer on such an input, it is
exactly the numeric value written. -/
theorem integer_overflow_fails (ds p t : List Nat) (neg : Bool) (hne : ds ≠ [])
    (hd : ∀ d ∈ ds, isdigit d = true)
    (hsize : (p ++ (105 :: (if neg then 45 :: ds else ds) ++ [101]) ++ t).length < 2 ^ 64) :
    ((if neg then -(digits_value ds : Int) else (digits_value ds : Int)) < LLONG_MIN
        ∨ LLONG_MAX < (if neg then -(digits_value ds : Int) else (digits_value ds : Int)) →
      decode_bencoded_integer (p ++ (105 :: (if neg then 45 :: ds else ds) ++ [101]) ++ t)
        p.length = .throws .out_of_range)
    ∧ (∀ k pos,
      decode_bencoded_integer (p ++ (105 :: (if neg then 45 :: ds else ds) ++ [101]) ++ t)
        p.length = .ok (.number_integer k) pos →
      k = (if neg then -(digits_value ds : Int) else (digits_value ds : Int))) := by
  have h64 : (2 : Nat) ^ 64 = 18446744073709551616 := by norm_num
  rw [h64] at hsize
  have he : 101 ∉ (if neg then 45 :: ds else ds) := by
    have h0 : 101 ∉ ds := not_mem_of_isdigit ds 101 hd (by decide)
    cases neg with
    | true =>
      simp only [if_true, List.mem_cons, not_or]
      exact ⟨by decide, h0⟩
    | false => simpa using h0
  have e : p ++ (105 :: (if neg then 45 :: ds else ds) ++ [101]) ++ t
      = p ++ (105 :: ((if neg then 45 :: ds else ds) ++ 101 :: t)) := by simp
  rw [e] at hsize ⊢
  rw [decode_integer_body p _ t he hsize, stoll_digits ds neg hne hd]
  constructor
  · intro hout
    simp only [hout, if_true]
  · intro k pos hok
    by_cases hout : (if neg then -(digits_value ds : Int) else (digits_value ds : Int)) < LLONG_MIN
        ∨ LLONG_MAX < (if neg then -(digits_value ds : Int) else (digits_value ds : Int))
    · simp only [hout, if_true] at hok
      exact Outcome.noConfusion hok
    · simp only [hout, if_false] at hok
      injection hok with h1 _
      injection h1 with h2
      exact h2.symm

theorem integer_overflow_fails_witness :
    bytes "9223372036854775808" ≠ [] ∧
    (∀ d ∈ bytes "9223372036854775808", isdigit d = true) ∧
    (bytes "" ++ (105 :: (if false then 45 :: bytes "9223372036854775808"
        else bytes "9223372036854775808") ++ [101]) ++ bytes "").length < 2 ^ 64 ∧
    ((if false then -(digits_value (bytes "9223372036854775808") : Int)
          else (digits_value (bytes "9223372036854775808") : Int)) < LLONG_MIN
        ∨ LLONG_MAX < (if false then -(digits_value (bytes "9223372036854775808") : Int)
          else (digits_value (bytes "9223372036854775808") : Int))) ∧
    decode_bencoded_integer (bytes "i9223372036854775808e") 0 = .throws .out_of_range := by
  have h := integer_overflow_fails (bytes "9223372036854775808") (bytes "") (bytes "") false
    (by decide) (by decide) (by decide)
  have hout : (if false then -(digits_value (bytes "9223372036854775808") : Int)
          else (digits_value (bytes "9223372036854775808") : Int)) < LLONG_MIN
        ∨ LLONG_MAX < (if false then -(digits_value (bytes "9223372036854775808") : Int)
          else (digits_value (bytes "9223372036854775808") : Int)) := by decide
  have h1 := h.1 hout
  exact ⟨by decide, by decide, by decide, hout, h1⟩

/-! ## Claims on the length text of the string rule -/

/-- The string rule on a length text free of `:`: the length is what `atoll`
reads, the content is cut from the bytes after the `:`. -/
theorem decode_string_body (p pre rest : List Nat) (h58 : 58 ∉ pre) :
    decode_bencoded_string (p ++ (pre ++ 58 :: rest)) p.length
      = .ok (.string (rest.take (size_t (atoll pre))))
          (size_t (((p.length + pre.length : Nat) : Int) + 1 + atoll pre)) := by
  have hfind : find (p ++ (pre ++ 58 :: rest)) 58 p.length = some (p.length + pre.length) :=
    find_past p pre rest 58 h58
  have hsub1 : substr (p ++ (pre ++ 58 :: rest)) p.length
      (p.length + pre.length - p.length) = some pre := by
    rw [Nat.add_sub_cancel_left]
    exact substr_past p pre (58 :: rest)
  have hsub2 : ∀ count, substr (p ++ (pre ++ 58 :: rest)) (p.length + pre.length + 1) count
      = some (rest.take count) := by
    intro count
    have e : p ++ (pre ++ 58 :: rest) = (p ++ pre ++ [58]) ++ rest := by simp
    have e2 : p.length + pre.length + 1 = (p ++ pre ++ [58]).length := by
      simp only [List.length_append, List.length_singleton]
    rw [e, e2]
    simp [substr]
  unfold decode_bencoded_string
  rw [hfind]
  simp only [hsub1, hsub2]

theorem atoll_digits (ds junk : List Nat) (hne : ds ≠ [])
    (hd : ∀ d ∈ ds, isdigit d = true) (hj : ∀ c ∈ junk.head?, isdigit c = false)
    (hfit : digits_value ds < 9223372036854775808) :
    atoll (ds ++ junk) = (digits_value ds : Int) := by
  simp only [atoll, strtoll_scan_digits ds junk hne hd hj]
  have h1 : ¬ ((digits_value ds : Int) < LLONG_MIN) := by simp only [LLONG_MIN]; omega
  have h2 : ¬ (LLONG_MAX < (digits_value ds : Int)) := by simp only [LLONG_MAX]; omega
  simp only [h1, h2, if_false]

theorem find_in_of_mem (s : List Nat) (c : Nat) (h : c ∈ s) : ∃ i, find_in s c = some i := by
  induction s with
  | nil => simp at h
  | cons x xs ih =>
    unfold find_in
    by_cases hx : x = c
    · exact ⟨0, by simp [hx]⟩
    · have hxs : c ∈ xs := by
        rcases List.mem_cons.mp h with h | h
        · exact absurd h.symm hx
        · exact h
      obtain ⟨i, hi⟩ := ih hxs
      exact ⟨i + 1, by simp [hx, hi]⟩

/-- Whenever a `:` is found the string rule returns a Text: the length is
what `atoll` reads before the `:`, the content is cut from the bytes after
it, and neither `substr` call can throw. -/
theorem decode_string_of_colon (buf : List Nat) (pos colon : Nat)
    (h : find buf 58 pos = some colon) :
    decode_bencoded_string buf pos
      = .ok (.string ((buf.drop (colon + 1)).take
            (size_t (atoll ((buf.drop pos).take (colon - pos))))))
          (size_t ((colon : Int) + 1 + atoll ((buf.drop pos).take (colon - pos)))) := by
  obtain ⟨hle, hlt, _⟩ := find_some buf 58 pos colon h
  have hsub1 : substr buf pos (colon - pos) = some ((buf.drop pos).take (colon - pos)) := by
    simp only [substr, show ¬ buf.length < pos from by omega, if_false]
  have hsub2 : ∀ count, substr buf (colon + 1) count
      = some ((buf.drop (colon + 1)).take count) := by
    intro count
    simp only [substr, show ¬ buf.length < colon + 1 from by omega, if_false]
  unfold decode_bencoded_string
  rw [h]
  simp only [hsub1, hsub2]

/-- C12 (amended). The length text is not validated: the string rule fails
with an error exactly when no `:` occurs at or after the cursor, and
whenever a `:` occurs there it returns a Text, whatever the bytes before the
`:` are; when those bytes start with ASCII digits followed by other bytes
(as in `1x:a`), the leading digits are taken as the length. -/
theorem string_length_text_not_validated (buf : List Nat) (pos : Nat)
    (p ds junk s t : List Nat)
    (hne : ds ≠ []) (hd : ∀ d ∈ ds, isdigit d = true)
    (hj : ∀ c ∈ junk.head?, isdigit c = false) (h58 : 58 ∉ junk)
    (hlen : digits_value ds = s.length)
    (hsize : (p ++ (ds ++ junk ++ 58 :: s) ++ t).length < 2 ^ 63) :
    (decode_bencoded_string buf pos = .throws .runtime_error ↔ 58 ∉ buf.drop pos)
      ∧ (58 ∈ buf.drop pos →
          ∃ text pos', decode_bencoded_string buf pos = .ok (.string text) pos')
      ∧ decode_bencoded_string (p ++ (ds ++ junk ++ 58 :: s) ++ t) p.length
        = .ok (.string s) (p.length + (ds ++ junk ++ 58 :: s).length) := by
  have h63 : (2 : Nat) ^ 63 = 9223372036854775808 := by norm_num
  rw [h63] at hsize
  simp only [List.length_append, List.length_cons] at hsize
  have hok : 58 ∈ buf.drop pos →
      ∃ text pos', decode_bencoded_string buf pos = .ok (.string text) pos' := by
    intro hmem
    obtain ⟨i, hi⟩ := find_in_of_mem _ 58 hmem
    have hf : find buf 58 pos = some (pos + i) := by simp [find, hi]
    exact ⟨_, _, decode_string_of_colon buf pos (pos + i) hf⟩
  refine ⟨⟨fun hthrow hmem => ?_, fun hno => ?_⟩, hok, ?_⟩
  · obtain ⟨text, pos', h⟩ := hok hmem
    rw [h] at hthrow
    exact Outcome.noConfusion hthrow
  · simp only [decode_bencoded_string, find_eq_none buf 58 pos hno]
  · have e : p ++ (ds ++ junk ++ 58 :: s) ++ t = p ++ ((ds ++ junk) ++ 58 :: (s ++ t)) := by
      simp
    have hpre : 58 ∉ ds ++ junk := by
      simp only [List.mem_append, not_or]
      exact ⟨not_mem_of_isdigit ds 58 hd (by decide), h58⟩
    rw [e, decode_string_body p (ds ++ junk) (s ++ t) hpre,
      atoll_digits ds junk hne hd hj (by omega), hlen,
      size_t_natCast s.length (by omega), List.take_left' rfl]
    have e3 : ((p.length + (ds ++ junk).length : Nat) : Int) + 1 + (s.length : Int)
        = ((p.length + (ds ++ junk).length + 1 + s.length : Nat) : Int) := by
      push_cast; ring
    rw [e3, size_t_natCast _ (by simp only [List.length_append]; omega)]
    congr 1
    simp only [List.length_append, List.length_cons]; omega

theorem string_length_text_not_validated_witness :
    bytes "1" ≠ [] ∧ (∀ d ∈ bytes "1", isdigit d = true) ∧
    (∀ c ∈ (bytes "x").head?, isdigit c = false) ∧ 58 ∉ bytes "x" ∧
    digits_value (bytes "1") = (bytes "a").length ∧
    (bytes "l" ++ (bytes "1" ++ bytes "x" ++ 58 :: bytes "a") ++ bytes "e").length < 2 ^ 63 ∧
    ((decode_bencoded_string (bytes "-1:") 0 = .throws .runtime_error
        ↔ 58 ∉ (bytes "-1:").drop 0)
      ∧ (58 ∈ (bytes "-1:").drop 0 →
          ∃ text pos', decode_bencoded_string (bytes "-1:") 0 = .ok (.string text) pos')
      ∧ decode_bencoded_string (bytes "l1x:ae") 1 = .ok (.string (bytes "a")) 5) := by
  have h := string_length_text_not_validated (bytes "-1:") 0 (bytes "l") (bytes "1")
    (bytes "x") (bytes "a") (bytes "e") (by decide) (by decide) (by decide) (by decide)
    (by decide) (by decide)
  exact ⟨by decide, by decide, by decide, by decide, by decide, by decide, h⟩

/-- C12 (counterexample). The string rule returns a Text on `1x:a`, on `-1:`
and on an empty length text. -/
theorem unparseable_length_counterexample :
    decode_bencoded_string (bytes "1x:a") 0 = .ok (.string (bytes "a")) 4
      ∧ decode_bencoded_string (bytes "-1:") 0 = .ok (.string []) 2
      ∧ decode_bencoded_string (bytes ":ab") 0 = .ok (.string []) 1 :=
  ⟨rfl, rfl, rfl⟩

/-! ## Claims on dictionary keys -/

theorem index_past_any (q junk : List Nat) :
    ∃ c, index (q ++ junk) q.length = some c ∧ (junk.head? = some c ∨ (junk = [] ∧ c = 0)) := by
  cases junk with
  | nil =>
    refine ⟨0, ?_, Or.inr ⟨rfl, rfl⟩⟩
    rw [List.append_nil]
    exact index_at_end q
  | cons c r => exact ⟨c, index_past q c r, Or.inl rfl⟩

/-- C13 (amended). Dictionary key positions without a `:`: for every
dictionary input in which, after zero or more complete key/value entries, the
bytes at the next key position do not start with `e` and hold no `:` up to
the end of the buffer, decoding fails with an error and no Dictionary is
returned. -/
theorem dictionary_key_without_colon_rejected (ms : List (List Nat × json))
    (p junk : List Nat) (fuel : Nat)
    (hrange : in_range_members ms = true)
    (hjunk : junk.head? ≠ some 101) (h58 : 58 ∉ junk)
    (hsize : (p ++ (100 :: encode_members ms) ++ junk).length < 2 ^ 63)
    (hfuel : 2 * (encode_members ms).length + 3 ≤ fuel) :
    decode_bencoded_dictionary fuel (p ++ (100 :: encode_members ms) ++ junk) p.length
      = .throws .runtime_error := by
  have h63 : (2 : Nat) ^ 63 = 9223372036854775808 := by norm_num
  rw [h63] at hsize
  simp only [List.length_append, List.length_cons] at hsize
  have hn := members_length_le ms
  obtain ⟨g, rfl⟩ : ∃ g, fuel = g + 1 + ms.length + 1 := ⟨fuel - ms.length - 2, by omega⟩
  have e : p ++ (100 :: encode_members ms) ++ junk
      = (p ++ [100]) ++ (encode_members ms ++ junk) := by simp
  have e2 : (p ++ [100]) ++ (encode_members ms ++ junk)
      = (p ++ [100] ++ encode_members ms) ++ junk := by simp
  have step := decode_encode_members ms (p ++ [100]) junk [] (g + 1) hrange
    (by simp only [List.length_append, List.length_singleton]; omega) (by omega)
  simp only [List.length_append, List.length_singleton] at step
  have hend : p.length + 1 + (encode_members ms).length
      = (p ++ [100] ++ encode_members ms).length := by
    simp only [List.length_append, List.length_singleton]
  rw [e, decode_bencoded_dictionary, mod_size (p.length + 1) (by omega), step, e2, hend]
  obtain ⟨c, hidx, hc⟩ := index_past_any (p ++ [100] ++ encode_members ms) junk
  have hne : c ≠ 101 := by
    rcases hc with hc | ⟨_, rfl⟩
    · rintro rfl
      exact hjunk hc
    · decide
  have hfind : find ((p ++ [100] ++ encode_members ms) ++ junk) 58
      (p ++ [100] ++ encode_members ms).length = none :=
    find_eq_none _ 58 _ (by rw [List.drop_left]; exact h58)
  rw [decode_bencoded_dictionary_loop, hidx]
  simp only [ne_eq, hne, not_false_eq_true, if_true, decode_bencoded_string, hfind]

theorem dictionary_key_without_colon_rejected_witness :
    in_range_members [(bytes "a", json.number_integer 1)] = true ∧
    (bytes "i2ee").head? ≠ some 101 ∧ 58 ∉ bytes "i2ee" ∧
    (bytes "" ++ (100 :: encode_members [(bytes "a", json.number_integer 1)])
      ++ bytes "i2ee").length < 2 ^ 63 ∧
    2 * (encode_members [(bytes "a", json.number_integer 1)]).length + 3 ≤ 15 ∧
    decode_bencoded_dictionary 15 (bytes "d1:ai1ei2ee") 0 = .throws .runtime_error := by
  have h := dictionary_key_without_colon_rejected [(bytes "a", json.number_integer 1)]
    (bytes "") (bytes "i2ee") 15 (by decide) (by decide) (by decide) (by decide) (by decide)
  exact ⟨by decide, by decide, by decide, by decide, by decide, h⟩

/-- C13 (counterexample). Key positions that hold no string-rule value are
accepted when a `:` follows: `d1x:ai1ee` (length text `1x`) yields the
Dictionary binding `a` to `1`, and `dx:i1ee` (a letter first) yields the
Dictionary binding the empty key to `1`. -/
theorem dictionary_key_counterexample :
    decode_bencoded_dictionary 4 (bytes "d1x:ai1ee") 0
        = .ok (.object [(bytes "a", .number_integer 1)]) 9
      ∧ decode_bencoded_dictionary 4 (bytes "dx:i1ee") 0
        = .ok (.object [([], .number_integer 1)]) 7 :=
  ⟨rfl, rfl⟩

/-! ## Claims on duplicate keys and on the order of entries -/

theorem lookup_normalize_members (key : List Nat) (ms : List (List Nat × json)) :
    ∀ acc, lookup key (normalize_members ms acc)
      = match last_binding key ms with
        | some v => some (normalize v)
        | none => lookup key acc := by
  induction ms with
  | nil => intro acc; simp [normalize_members, last_binding]
  | cons e rest ih =>
    obtain ⟨k, v⟩ := e
    intro acc
    rw [normalize_members, ih, last_binding]
    cases last_binding key rest with
    | some w => rfl
    | none =>
      simp only [lookup_object_set]
      by_cases hk : k = key <;> simp [hk]

theorem last_binding_eq_none_iff (key : List Nat) (ms : List (List Nat × json)) :
    last_binding key ms = none ↔ key ∉ ms.map Prod.fst := by
  induction ms with
  | nil => simp [last_binding]
  | cons e rest ih =>
    obtain ⟨k, v⟩ := e
    rw [last_binding]
    cases hl : last_binding key rest with
    | some w =>
      have hin : key ∈ rest.map Prod.fst := by
        by_contra hnot
        rw [ih.mpr hnot] at hl
        exact Option.noConfusion hl
      simp [hin]
    | none =>
      have hnot := ih.mp hl
      by_cases hk : k = key
      · simp [hk]
      · simp only [hk, if_false, List.map_cons, List.mem_cons, not_or, true_iff]
        exact ⟨fun e => hk e.symm, hnot⟩

/-- C14. Duplicate keys replace on insert: for every well-formed dictionary
encoding, whatever keys repeat in it, the decoded Dictionary contains every
key of the input exactly once (and no other key) and binds it to the value
decoded at the last occurrence of that key. -/
theorem duplicate_keys_replace (ms : List (List Nat × json)) (p t : List Nat) (fuel : Nat)
    (hrange : in_range_members ms = true)
    (hsize : (p ++ (100 :: encode_members ms ++ [101]) ++ t).length < 2 ^ 63)
    (hfuel : 2 * (encode_members ms).length + 3 ≤ fuel) :
    ∃ ns, decode_bencoded_dictionary fuel (p ++ (100 :: encode_members ms ++ [101]) ++ t)
          p.length
        = .ok (.object ns) (p.length + (100 :: encode_members ms ++ [101]).length)
      ∧ (ns.map Prod.fst).Nodup
      ∧ ∀ key, (key ∈ ns.map Prod.fst ↔ key ∈ ms.map Prod.fst)
          ∧ lookup key ns = (last_binding key ms).map normalize := by
  have h63 : (2 : Nat) ^ 63 = 9223372036854775808 := by norm_num
  rw [h63] at hsize
  have hasc := normalize_members_ascending ms [] (by simp [ascending_keys])
  have hnd := ascending_keys_nodup _ hasc
  have hlook : ∀ key, lookup key (normalize_members ms [])
      = (last_binding key ms).map normalize := by
    intro key
    rw [lookup_normalize_members]
    cases last_binding key ms <;> rfl
  refine ⟨normalize_members ms [], decode_dictionary_encoded ms p t fuel hrange hsize hfuel,
    hnd, fun key => ⟨?_, hlook key⟩⟩
  rw [← not_iff_not, ← lookup_eq_none_iff, ← last_binding_eq_none_iff, hlook]
  cases last_binding key ms <;> simp

theorem duplicate_keys_replace_witness :
    in_range_members [(bytes "b", json.number_integer 1), (bytes "a", json.number_integer 2),
        (bytes "b", json.number_integer 3)] = true ∧
    (bytes "" ++ (100 :: encode_members [(bytes "b", json.number_integer 1),
        (bytes "a", json.number_integer 2), (bytes "b", json.number_integer 3)] ++ [101])
      ++ bytes "").length < 2 ^ 63 ∧
    2 * (encode_members [(bytes "b", json.number_integer 1),
        (bytes "a", json.number_integer 2), (bytes "b", json.number_integer 3)]).length + 3
      ≤ 39 ∧
    ∃ ns, decode_bencoded_dictionary 39 (bytes "d1:bi1e1:ai2e1:bi3ee") 0
        = .ok (.object ns) 20
      ∧ (ns.map Prod.fst).Nodup
      ∧ ∀ key, (key ∈ ns.map Prod.fst ↔ key ∈ [bytes "b", bytes "a", bytes "b"])
          ∧ lookup key ns = (last_binding key [(bytes "b", json.number_integer 1),
              (bytes "a", json.number_integer 2), (bytes "b", json.number_integer 3)]).map
            normalize := by
  have h := duplicate_keys_replace [(bytes "b", json.number_integer 1),
    (bytes "a", json.number_integer 2), (bytes "b", json.number_integer 3)]
    (bytes "") (bytes "") 39 (by decide) (by decide) (by decide)
  exact ⟨by decide, by decide, by decide, h⟩

theorem encode_members_length_perm (ms ms' : List (List Nat × json)) (h : ms.Perm ms') :
    (encode_members ms).length = (encode_members ms').length := by
  induction h with
  | nil => rfl
  | cons x _ ih =>
    obtain ⟨k, v⟩ := x
    simp only [encode_members, List.length_append, ih]
  | swap x y l =>
    obtain ⟨k, v⟩ := x
    obtain ⟨k', v'⟩ := y
    simp only [encode_members, List.length_append]
    omega
  | trans _ _ ih1 ih2 => exact ih1.trans ih2

theorem in_range_members_perm (ms ms' : List (List Nat × json)) (h : ms.Perm ms') :
    in_range_members ms = in_range_members ms' := by
  induction h with
  | nil => rfl
  | cons x _ ih =>
    obtain ⟨k, v⟩ := x
    simp only [in_range_members, ih]
  | swap x y l =>
    obtain ⟨k, v⟩ := x
    obtain ⟨k', v'⟩ := y
    simp only [in_range_members]
    cases in_range v <;> cases in_range v' <;> rfl
  | trans _ _ ih1 ih2 => exact ih1.trans ih2

/-- C19. The decoded dictionary does not depend on the order of its entries
in the input: for every list of key/value entries with pairwise distinct
keys and every permutation of that list, decoding `d` entries `e` and
decoding `d` permuted entries `e` yield the same Dictionary value (and the
same cursor). -/
theorem dictionary_order_independent (ms ms' : List (List Nat × json)) (p t : List Nat)
    (fuel : Nat) (hperm : ms.Perm ms') (hkeys : (ms.map Prod.fst).Nodup)
    (hrange : in_range_members ms = true)
    (hsize : (p ++ (100 :: encode_members ms ++ [101]) ++ t).length < 2 ^ 63)
    (hfuel : 2 * (encode_members ms).length + 3 ≤ fuel) :
    ∃ ns pos,
      decode_bencoded_dictionary fuel (p ++ (100 :: encode_members ms ++ [101]) ++ t) p.length
        = .ok (.object ns) pos
      ∧ decode_bencoded_dictionary fuel (p ++ (100 :: encode_members ms' ++ [101]) ++ t)
          p.length
        = .ok (.object ns) pos := by
  have h63 : (2 : Nat) ^ 63 = 9223372036854775808 := by norm_num
  rw [h63] at hsize
  have hlen := encode_members_length_perm ms ms' hperm
  have hrange' : in_range_members ms' = true := by
    rw [← in_range_members_perm ms ms' hperm]; exact hrange
  have hkeys' : (ms'.map Prod.fst).Nodup := ((hperm.map Prod.fst).nodup_iff).mp hkeys
  have hsize' : (p ++ (100 :: encode_members ms' ++ [101]) ++ t).length
      < 9223372036854775808 := by
    simp only [List.length_append, List.length_cons, List.length_nil] at hsize ⊢
    omega
  have h1 := decode_dictionary_encoded ms p t fuel hrange hsize hfuel
  have h2 := decode_dictionary_encoded ms' p t fuel hrange' hsize' (by omega)
  have hp1 := normalize_members_perm ms [] hkeys (fun _ _ => rfl)
  have hp2 := normalize_members_perm ms' [] hkeys' (fun _ _ => rfl)
  rw [List.append_nil] at hp1 hp2
  have heq : normalize_members ms' [] = normalize_members ms [] :=
    ascending_perm_unique _ _
      ((hp2.trans (hperm.map _).symm).trans hp1.symm)
      (normalize_members_ascending ms' [] (by simp [ascending_keys]))
      (normalize_members_ascending ms [] (by simp [ascending_keys]))
  refine ⟨normalize_members ms [], _, h1, ?_⟩
  rw [h2, heq]
  congr 1
  simp only [List.length_append, List.length_cons, List.length_nil]
  omega

theorem dictionary_order_independent_witness :
    [(bytes "spam", json.string (bytes "eggs")), (bytes "cow", json.string (bytes "moo"))].Perm
      [(bytes "cow", json.string (bytes "moo")), (bytes "spam", json.string (bytes "eggs"))] ∧
    ([(bytes "spam", json.string (bytes "eggs")), (bytes "cow", json.string (bytes "moo"))].map
      Prod.fst).Nodup ∧
    in_range_members [(bytes "spam", json.string (bytes "eggs")),
      (bytes "cow", json.string (bytes "moo"))] = true ∧
    (bytes "" ++ (100 :: encode_members [(bytes "spam", json.string (bytes "eggs")),
      (bytes "cow", json.string (bytes "moo"))] ++ [101]) ++ bytes "").length < 2 ^ 63 ∧
    2 * (encode_members [(bytes "spam", json.string (bytes "eggs")),
      (bytes "cow", json.string (bytes "moo"))]).length + 3 ≤ 47 ∧
    ∃ ns pos,
      decode_bencoded_dictionary 47 (bytes "d4:spam4:eggs3:cow3:mooe") 0 = .ok (.object ns) pos
      ∧ decode_bencoded_dictionary 47 (bytes "d3:cow3:moo4:spam4:eggse") 0
        = .ok (.object ns) pos := by
  have hperm : [(bytes "spam", json.string (bytes "eggs")),
      (bytes "cow", json.string (bytes "moo"))].Perm
      [(bytes "cow", json.string (bytes "moo")), (bytes "spam", json.string (bytes "eggs"))] :=
    List.Perm.swap _ _ _
  have h := dictionary_order_independent
    [(bytes "spam", json.string (bytes "eggs")), (bytes "cow", json.string (bytes "moo"))]
    [(bytes "cow", json.string (bytes "moo")), (bytes "spam", json.string (bytes "eggs"))]
    (bytes "") (bytes "") 47 hperm (by decide) (by decide) (by decide) (by decide)
  exact ⟨hperm, by decide, by decide, by decide, by decide, h⟩

/-! ## Claims on the cursor, termination and trailing bytes -/

/-- C15 (failing input). A length text with a minus sign moves the cursor
back: on `d-3:e` the string rule started at the key position `1` returns with
the cursor still at `1`, on `d-4:` it returns with the cursor at `0`, and on
`leexd-8:` the dictionary rule and the dispatcher started at `4` return a
Dictionary with the cursor at `3`. -/
theorem cursor_monotonicity_failing_input :
    decode_bencoded_string (bytes "d-3:e") 1 = .ok (.string (bytes "e")) 1
      ∧ decode_bencoded_string (bytes "d-4:") 1 = .ok (.string []) 0
      ∧ decode_bencoded_dictionary 6 (bytes "leexd-8:") 4
        = .ok (.object [([], .array [])]) 3
      ∧ decode_bencoded_value 7 (bytes "leexd-8:") 4 = .ok (.object [([], .array [])]) 3 :=
  ⟨rfl, rfl, rfl, rfl⟩

theorem diverges_step (n : Nat)
    (ih : decode_bencoded_value n [100, 45, 52, 58] 0 = .out_of_fuel) :
    decode_bencoded_value (n + 3) [100, 45, 52, 58] 0 = .out_of_fuel := by
  have h0 : index [100, 45, 52, 58] 0 = some 100 := rfl
  have h1 : index [100, 45, 52, 58] 1 = some 45 := rfl
  have hs : decode_bencoded_string [100, 45, 52, 58] 1 = .ok (.string []) 0 := rfl
  rw [dispatch_dictionary (n + 2) _ _ h0, decode_bencoded_dictionary,
    show (0 + 1) % SIZE_MOD = 1 from rfl, decode_bencoded_dictionary_loop, h1]
  simp only [ne_eq, show ¬ (45 : Nat) = 101 from by decide, not_false_eq_true, if_true, hs, ih]

theorem diverges_all (n : Nat) :
    decode_bencoded_value n [100, 45, 52, 58] 0 = .out_of_fuel
      ∧ decode_bencoded_value (n + 1) [100, 45, 52, 58] 0 = .out_of_fuel
      ∧ decode_bencoded_value (n + 2) [100, 45, 52, 58] 0 = .out_of_fuel := by
  induction n with
  | zero => exact ⟨rfl, rfl, rfl⟩
  | succ k ih => exact ⟨ih.2.1, ih.2.2, diverges_step k ih.1⟩

/-- C16 (failing input). The top-level decode of `d-4:` never returns and
never fails: whatever the fuel, the run is still going when the fuel is
spent, each round of dispatcher, dictionary rule and string rule leading back
to the dispatcher at cursor `0`. -/
theorem decoding_diverges_failing_input (fuel : Nat) :
    decode_bencoded_value_from_start fuel (bytes "d-4:") = .out_of_fuel := by
  have hb : bytes "d-4:" = [100, 45, 52, 58] := by decide
  rw [decode_bencoded_value_from_start, hb]
  exact (diverges_all fuel).1

/-- C20. Trailing bytes are ignored by the top-level decode: for every
encoding `e` of a value tree with Integers in range and every byte string
`t`, the one-argument `decode_bencoded_value` on `e ++ t` returns the value
(and the cursor) it returns on `e`; it does not fail because input remains. -/
theorem trailing_bytes_ignored (v : json) (t : List Nat) (fuel : Nat)
    (hrange : in_range v = true)
    (hsize : (encode v ++ t).length < 2 ^ 63)
    (hfuel : 2 * (encode v).length ≤ fuel) :
    decode_bencoded_value_from_start fuel (encode v ++ t)
        = .ok (normalize v) (encode v).length
      ∧ decode_bencoded_value_from_start fuel (encode v ++ t)
        = decode_bencoded_value_from_start fuel (encode v) := by
  have h63 : (2 : Nat) ^ 63 = 9223372036854775808 := by norm_num
  rw [h63] at hsize
  have h1 := decode_encode_value v [] t fuel hrange (by simpa using hsize) hfuel
  have h2 := decode_encode_value v [] [] fuel hrange
    (by simp only [List.length_append, List.nil_append, List.length_nil] at hsize ⊢; omega)
    hfuel
  simp only [List.nil_append, List.length_nil, Nat.zero_add, List.append_nil] at h1 h2
  simp only [decode_bencoded_value_from_start, h1, h2, and_self]

theorem trailing_bytes_ignored_witness :
    in_range (.number_integer 1) = true ∧
    (encode (.number_integer 1) ++ bytes "xyz").length < 2 ^ 63 ∧
    2 * (encode (.number_integer 1)).length ≤ 6 ∧
    (decode_bencoded_value_from_start 6 (bytes "i1exyz") = .ok (.number_integer 1) 3
      ∧ decode_bencoded_value_from_start 6 (bytes "i1exyz")
        = decode_bencoded_value_from_start 6 (bytes "i1e")) := by
  have h := trailing_bytes_ignored (.number_integer 1) (bytes "xyz") 6 (by decide) (by decide)
    (by decide)
  exact ⟨by decide, by decide, by decide, h⟩

end Bencode
